import Mathlib

/-!
# Verification of `update_locations.py`

A shallow embedding of the GEDCOM location-synchronisation script
`src/update_locations.py` and proofs of the specification claims about it.

Strings are modelled as `List Char` (`Str`) so that splitting, stripping and
serialisation round-trips can be reasoned about by ordinary list induction.
Python's `int(...)` is modelled for optional-sign ASCII-digit numerals (the
exotic extras of the builtin — underscore grouping and non-ASCII digits — play
no role in any claim), and `str.strip()` is modelled on the ASCII whitespace
characters.  The two sources of nondeterminism in the script, `uuid.uuid4()`
inside `generate_uid` and `datetime.now` inside `create_chan_node`, are passed
in as explicit parameters.
-/

/-- Python strings, modelled as lists of characters. -/
abbrev Str := List Char

/-- ASCII whitespace recognised by `str.strip()`. -/
def isPyWhite (c : Char) : Bool :=
  c = ' ' || c = '\t' || c = '\n' || c = '\x0d' || c = '\x0b' || c = '\x0c'

/-- Python `s.strip()`: drop whitespace from both ends. -/
def pyStrip (s : Str) : Str :=
  ((s.dropWhile isPyWhite).reverse.dropWhile isPyWhite).reverse

/-- Python `s.strip('@')`: drop `'@'` characters from both ends. -/
def stripAt (s : Str) : Str :=
  ((s.dropWhile (· = '@')).reverse.dropWhile (· = '@')).reverse

/-- Auxiliary worker for `splitChar`: `acc` is the current (reversed) chunk,
the first argument is the number of splits still allowed. -/
def splitCharAux (sep : Char) : Nat → Str → Str → List Str
  | _, acc, [] => [acc.reverse]
  | 0, acc, s => [acc.reverse ++ s]
  | m + 1, acc, c :: rest =>
      if c = sep then acc.reverse :: splitCharAux sep m [] rest
      else splitCharAux sep (m + 1) (c :: acc) rest

/-- Python `s.split(sep, maxsplit)` for a one-character separator: at most
`maxsplit` splits are performed, empty chunks are kept. -/
def splitChar (sep : Char) (maxsplit : Nat) (s : Str) : List Str :=
  splitCharAux sep maxsplit [] s

/-- Value of an ASCII digit character. -/
def digitVal (c : Char) : Option Nat :=
  if c = '0' then some 0 else if c = '1' then some 1 else if c = '2' then some 2
  else if c = '3' then some 3 else if c = '4' then some 4 else if c = '5' then some 5
  else if c = '6' then some 6 else if c = '7' then some 7 else if c = '8' then some 8
  else if c = '9' then some 9 else none

/-- Fold a digit string onto an accumulator, failing at the first non-digit. -/
def digitsToNatAux : Nat → Str → Option Nat
  | acc, [] => some acc
  | acc, c :: rest =>
      match digitVal c with
      | some d => digitsToNatAux (acc * 10 + d) rest
      | none => none

/-- Read a non-empty all-digit string. -/
def digitsToNat (s : Str) : Option Nat :=
  match s with
  | [] => none
  | _ => digitsToNatAux 0 s

/-- Python `int(s)` on the fragment used by the script: optional surrounding
whitespace, an optional sign, then ASCII digits. -/
def pyInt (s : Str) : Option Int :=
  match pyStrip s with
  | [] => none
  | c :: rest =>
      if c = '-' then (digitsToNat rest).map (fun n => -(n : Int))
      else if c = '+' then (digitsToNat rest).map (fun n => (n : Int))
      else (digitsToNat (c :: rest)).map (fun n => (n : Int))

/-- The ASCII digit character for `n < 10`. -/
def digitChar (n : Nat) : Char :=
  match n with
  | 0 => '0' | 1 => '1' | 2 => '2' | 3 => '3' | 4 => '4'
  | 5 => '5' | 6 => '6' | 7 => '7' | 8 => '8' | _ => '9'

/-- Fuelled decimal rendering of a natural number (fuel `≥ n` always suffices). -/
def natToStrGo : Nat → Nat → Str → Str
  | 0, n, acc => digitChar (n % 10) :: acc
  | fuel + 1, n, acc =>
      if n < 10 then digitChar n :: acc
      else natToStrGo fuel (n / 10) (digitChar (n % 10) :: acc)

/-- Decimal rendering of a natural number, as produced by Python `str`. -/
def natToStr (n : Nat) : Str := natToStrGo n n []

/-- Python `str(i)` for an integer. -/
def intToStr (i : Int) : Str :=
  if i < 0 then '-' :: natToStr (-i).toNat else natToStr i.toNat

/-! ## The data model

A GEDCOM node as built by `parse_gedcom_lines`: the Python dict
`{'level': .., 'tag': .., 'value': .., 'xref_id': .., 'children': ..}`. -/

structure Node where
  level : Int
  tag : Str
  value : Str
  xref : Option Str
  children : List Node
deriving Repr

instance : Inhabited Node := ⟨⟨0, [], [], none, []⟩⟩


/-- Python truthiness of the optional `xref_id` string: `None` and `""` are
falsy, everything else truthy. -/
def optTruthy (x : Option Str) : Bool :=
  match x with
  | none => false
  | some s => !s.isEmpty

/-- Python `s.startswith(p)`. -/
def pyStarts (s p : Str) : Bool := p.isPrefixOf s

/-- Python `s.endswith(p)`. -/
def pyEnds (s p : Str) : Bool := p.isSuffixOf s

/-! ## The Line Tokenizer (inline part of `parse_gedcom_lines`, lines 24-54)

A tokenized line.  `Except Unit` models the possible `IndexError`: for a
stripped line that has an integer first segment but no second segment at all,
the Python code evaluates `parts[1]` in the `else` branch and raises. -/

structure Tok where
  level : Int
  xref : Option Str
  tag : Str
  value : Str
deriving Repr, DecidableEq

def tokenizeLine (line : Str) : Except Unit (Option Tok) :=
  let stripped := pyStrip line
  if stripped.isEmpty then .ok none
  else
    match splitChar ' ' 2 stripped with
    | [] => .ok none
    | p0 :: rest =>
      match pyInt p0 with
      | none => .ok none
      | some level =>
        match rest with
        | [] => .error ()
        | p1 :: rest2 =>
          if pyStarts p1 ['@'] && pyEnds p1 ['@'] then
            match rest2 with
            | [] => .ok (some ⟨level, some p1, [], []⟩)
            | p2 :: _ =>
              match splitChar ' ' 1 p2 with
              | [] => .ok (some ⟨level, some p1, [], []⟩)
              | tg :: rest3 => .ok (some ⟨level, some p1, tg, rest3.headD []⟩)
          else
            .ok (some ⟨level, none, p1, rest2.headD []⟩)

/-- The Garbage Filter (lines 56-60): level-0 `_LOC` tokens whose value looks
like a cross-reference token and which carry no xref id of their own. -/
def isGarbage (t : Tok) : Bool :=
  t.level == 0 && t.tag == "_LOC".toList
    && pyStarts t.value ['@'] && pyEnds t.value ['@'] && !optTruthy t.xref

/-! ## The Tree Builder (lines 17-85)

The Python code pushes a node reference onto the stack and appends it to its
parent's (or `all_records`'s) children immediately, then mutates it in place.
The pure model instead attaches a node to its parent when it is popped off the
stack, and flushes a completed level-0 record to `records` when the next
level-0 line (or the end of input) arrives; `idMap` therefore stores the
record's *index* in the final record list, which is exactly what the Python
`id_map`'s node reference denotes once parsing finishes. -/

structure PState where
  records : List Node
  idMap : List (Str × Nat)
  stack : List (Int × Node)
deriving Repr

/-- Pop stack entries with level `≥ lvl` (the `while` loop at line 76),
attaching each popped node to the entry below it; `c` is the node just popped.
Returns the remaining stack and a flushed root if the whole stack was consumed. -/
def popCarry (lvl : Int) : Node → List (Int × Node) → List (Int × Node) × List Node
  | c, [] => ([], [c])
  | c, (l, p) :: rest =>
      let p' : Node := { p with children := p.children ++ [c] }
      if lvl ≤ l then popCarry lvl p' rest
      else ((l, p') :: rest, [])

def popGE (lvl : Int) (stack : List (Int × Node)) : List (Int × Node) × List Node :=
  match stack with
  | [] => ([], [])
  | (l, n) :: rest => if lvl ≤ l then popCarry lvl n rest else ((l, n) :: rest, [])

/-- Collapse the whole stack into its (fully assembled) root record, if any. -/
def collapseCarry : Node → List (Int × Node) → Node
  | c, [] => c
  | c, (_, p) :: rest => collapseCarry { p with children := p.children ++ [c] } rest

def collapseStack : List (Int × Node) → List Node
  | [] => []
  | (_, n) :: rest => [collapseCarry n rest]

/-- Python dict assignment `m[k] = v` (observed only through lookups). -/
def mapInsert (k : Str) (v : Nat) (m : List (Str × Nat)) : List (Str × Nat) :=
  (k, v) :: m.filter (fun e => e.1 != k)

/-- Python dict lookup / `in` test. -/
def mapLookup (k : Str) (m : List (Str × Nat)) : Option Nat :=
  (m.find? (fun e => e.1 == k)).map (fun e => e.2)

/-- One iteration of the `for line in lines` loop of `parse_gedcom_lines`. -/
def processLine (st : PState) (line : Str) : Except Unit PState :=
  match tokenizeLine line with
  | .error e => .error e
  | .ok none => .ok st
  | .ok (some t) =>
    if isGarbage t then .ok st
    else
      let node : Node := ⟨t.level, t.tag, t.value, t.xref, []⟩
      if t.level = 0 then
        let fin := st.records ++ collapseStack st.stack
        let m :=
          if t.tag == "_LOC".toList && optTruthy t.xref then
            mapInsert (stripAt (t.xref.getD [])) fin.length st.idMap
          else st.idMap
        .ok ⟨fin, m, [(0, node)]⟩
      else
        match popGE t.level st.stack with
        | (stk, flushed) =>
          match stk with
          | [] => .ok ⟨st.records ++ flushed, st.idMap, []⟩
          | _ => .ok ⟨st.records ++ flushed, st.idMap, (t.level, node) :: stk⟩

def parse_gedcom_lines (lines : List Str) : Except Unit (List Node × List (Str × Nat)) :=
  match lines.foldlM processLine ⟨[], [], []⟩ with
  | .error e => .error e
  | .ok st => .ok (st.records ++ collapseStack st.stack, st.idMap)

/-! ## The Serializer (`serialize_record`, lines 209-223) -/

/-- The header line for one node: level, optional xref, tag, optional value,
joined with single spaces. -/
def serializeFields (level : Int) (xref : Option Str) (tag value : Str) : Str :=
  List.intercalate [' ']
    ([intToStr level]
      ++ (if optTruthy xref then [xref.getD []] else [])
      ++ [tag]
      ++ (if value.isEmpty then [] else [value]))

mutual
def serialize_record : Node → Str
  | ⟨l, t, v, x, ch⟩ =>
      List.intercalate ['\n'] (serializeFields l x t v :: serChildren ch)
def serChildren : List Node → List Str
  | [] => []
  | c :: cs => serialize_record c :: serChildren cs
end

/-- The text written by `main`: each top-level record's serialization followed
by one newline (line 269). -/
def gedOutput (records : List Node) : Str :=
  (records.map (fun r => serialize_record r ++ ['\n'])).flatten

/-- Splitting a text into lines, as `readlines` presents them to the parser
(line terminators are immaterial because the parser strips each line). -/
def splitAllChar (sep : Char) : Str → List Str
  | [] => [[]]
  | c :: rest =>
      if c = sep then [] :: splitAllChar sep rest
      else
        match splitAllChar sep rest with
        | [] => [[c]]
        | h :: t => (c :: h) :: t

/-! ## External records (the YAML side)

A YAML location record as consumed by `update_record`: the optional `names`
and `parents` lists.  A missing key is `none`; the entries mirror the fields
the script reads. -/

structure YamlName where
  name : Str
  period : Option Str
deriving Repr, DecidableEq

structure YamlParent where
  id : Option Str
  period : Option Str
deriving Repr, DecidableEq

structure YamlItem where
  names : Option (List YamlName)
  parents : Option (List YamlParent)
deriving Repr, DecidableEq

/-! ## The Record Merger (`update_record`, lines 127-195)

`uuid.uuid4().hex.upper()` and the two `strftime` strings of
`create_chan_node` are the script's only nondeterministic inputs; they are
passed in as the parameters `uid`, `dateStr` and `timeStr`. -/

def create_chan_node (dateStr timeStr : Str) : Node :=
  ⟨1, "CHAN".toList, [], none,
    [⟨2, "DATE".toList, dateStr, none,
      [⟨3, "TIME".toList, timeStr, none, []⟩]⟩]⟩

def uidNode (uid : Str) : Node := ⟨1, "_UID".toList, uid, none, []⟩

/-- Python dict assignment for the `name_abbrs` map. -/
def abbrInsert (k v : Str) (m : List (Str × Str)) : List (Str × Str) :=
  (k, v) :: m.filter (fun e => e.1 != k)

def abbrLookup (k : Str) (m : List (Str × Str)) : Option Str :=
  (m.find? (fun e => e.1 == k)).map (fun e => e.2)

/-- Accumulator of the single pass over `record['children']` (lines 137-149). -/
structure ScanAcc where
  nameAbbrs : List (Str × Str)
  preserved : List Node
  hasUid : Bool
  existingChan : Option Node
deriving Repr

def scanChild (acc : ScanAcc) (child : Node) : ScanAcc :=
  if child.tag == "NAME".toList then
    { acc with
      nameAbbrs := child.children.foldl
        (fun m sub => if sub.tag == "ABBR".toList then abbrInsert child.value sub.value m else m)
        acc.nameAbbrs }
  else if child.tag == "_UID".toList then
    { acc with preserved := acc.preserved ++ [child], hasUid := true }
  else if child.tag == "CHAN".toList then
    { acc with existingChan := some child }
  else if !(child.tag == "NAME".toList || child.tag == "_LOC".toList
      || child.tag == "CHAN".toList) then
    { acc with preserved := acc.preserved ++ [child] }
  else acc

/-- A new `NAME` child built from one YAML name entry (lines 158-167): value
is the name text, an `ABBR` sub-child is reattached from the lookup, a `DATE`
sub-child carries the period. -/
def mkNameNode (abbrs : List (Str × Str)) (n : YamlName) : Node :=
  ⟨1, "NAME".toList, n.name, none,
    (match abbrLookup n.name abbrs with
     | some a => [⟨2, "ABBR".toList, a, none, []⟩]
     | none => [])
    ++ (match n.period with
        | some p => [⟨2, "DATE".toList, p, none, []⟩]
        | none => [])⟩

/-- A new `_LOC` parent-link child from one YAML parent entry (lines 171-178);
`none` when the entry's `id` is missing or falsy. -/
def mkParentNode (p : YamlParent) : Option Node :=
  match p.id with
  | none => none
  | some pid =>
      if pid.isEmpty then none
      else some ⟨1, "_LOC".toList, '@' :: (pid ++ ['@']), none,
        (match p.period with
         | some per => [⟨2, "DATE".toList, per, none, []⟩]
         | none => [])⟩

def update_record (uid dateStr timeStr : Str) (record : Node) (item : YamlItem) : Node :=
  let acc := record.children.foldl scanChild ⟨[], [], false, none⟩
  let preserved := if acc.hasUid then acc.preserved else uidNode uid :: acc.preserved
  let newNames :=
    match item.names with
    | some ns => ns.map (mkNameNode acc.nameAbbrs)
    | none => []
  let newParents :=
    match item.parents with
    | some ps => ps.filterMap mkParentNode
    | none => []
  let uidNodes := preserved.filter (fun c => c.tag == "_UID".toList)
  let otherPreserved := preserved.filter (fun c => !(c.tag == "_UID".toList))
  let chanNode :=
    match acc.existingChan with
    | some c => c
    | none => create_chan_node dateStr timeStr
  { record with children := uidNodes ++ [chanNode] ++ otherPreserved ++ newNames ++ newParents }

def create_new_record (recId : Str) (uid dateStr timeStr : Str) (item : YamlItem) : Node :=
  update_record uid dateStr timeStr ⟨0, "_LOC".toList, [], some ('@' :: (recId ++ ['@'])), []⟩ item

/-! ## The Orchestrator (`main`, lines 225-271)

The YAML mapping is given as an association list in its (insertion-ordered)
iteration order; `fresh` supplies, for the `k`-th create-or-update, the
`(uid, dateStr, timeStr)` triple the script would draw from `uuid4`/`now`. -/

/-- One iteration of the `for y_id, y_item in yaml_data.items()` loop. -/
def applyYaml (fresh : Nat → Str × Str × Str) :
    List Node × List (Str × Nat) × Nat → Str × YamlItem → List Node × List (Str × Nat) × Nat
  | (records, idMap, k), (yid, item) =>
    let f := fresh k
    match mapLookup yid idMap with
    | some idx =>
        (records.set idx (update_record f.1 f.2.1 f.2.2 (records.getD idx default) item),
          idMap, k + 1)
    | none =>
        let newRec := create_new_record yid f.1 f.2.1 f.2.2 item
        (records ++ [newRec], mapInsert yid records.length idMap, k + 1)

/-- Trailer relocation (lines 251-262): move the first `TRLR` record to the
end, or append a fresh empty trailer when none exists. -/
def moveTrailer (records : List Node) : List Node :=
  match records.findIdx? (fun r => r.tag == "TRLR".toList) with
  | some i => records.eraseIdx i ++ [records.getD i default]
  | none => records ++ [⟨0, "TRLR".toList, [], none, []⟩]

/-- The record list `main` serializes: parsed records, the create-or-merge
loop over the external records, then trailer relocation. -/
def mainRecords (records0 : List Node) (idMap0 : List (Str × Nat))
    (yaml : List (Str × YamlItem)) (fresh : Nat → Str × Str × Str) : List Node :=
  moveTrailer (yaml.foldl (applyYaml fresh) (records0, idMap0, 0)).1

/-- The whole pipeline on a given input text (as lines) and external-record
mapping: parse, create-or-merge, relocate the trailer. -/
def orchestrate (lines : List Str) (yaml : List (Str × YamlItem))
    (fresh : Nat → Str × Str × Str) : Except Unit (List Node) :=
  match parse_gedcom_lines lines with
  | .error e => .error e
  | .ok (records, idMap) => .ok (mainRecords records idMap yaml fresh)

/-! ## Derived definitions used by the claims -/

/-- The token carried by a node (its header fields). -/
def tokOf (n : Node) : Tok := ⟨n.level, n.xref, n.tag, n.value⟩

/-- Number of top-level records with a given tag. -/
def countTag (tg : Str) (records : List Node) : Nat :=
  (records.filter (fun r => r.tag == tg)).length

/-- Number of children of a node with a given tag. -/
def countChildTag (tg : Str) (n : Node) : Nat :=
  (n.children.filter (fun c => c.tag == tg)).length

/-- Claim C5, "unique-id node(s) first": the pre-existing unique-id children
in their original order, or the single freshly generated one. -/
def claimUidPart (uid : Str) (rec : Node) : List Node :=
  if rec.children.any (fun c => c.tag == "_UID".toList)
  then rec.children.filter (fun c => c.tag == "_UID".toList)
  else [uidNode uid]

/-- Claim C5, "the captured existing change-metadata node if present, else a
freshly synthesized one" (capture keeps the last `CHAN` child). -/
def claimChanPart (dateStr timeStr : Str) (rec : Node) : Node :=
  match (rec.children.filter (fun c => c.tag == "CHAN".toList)).getLast? with
  | some c => c
  | none => create_chan_node dateStr timeStr

/-- Claim C5, "every pre-existing child whose tag is outside
{NAME, _LOC, CHAN, _UID}, verbatim and in their original relative order". -/
def claimPreservedPart (rec : Node) : List Node :=
  rec.children.filter (fun c =>
    !(c.tag == "NAME".toList) && !(c.tag == "_LOC".toList)
      && !(c.tag == "CHAN".toList) && !(c.tag == "_UID".toList))

/-- The name-to-abbreviation lookup table the merge pass collects. -/
def abbrsOf (rec : Node) : List (Str × Str) :=
  (rec.children.foldl scanChild ⟨[], [], false, none⟩).nameAbbrs

/-- Does `rec` have a `NAME` child valued `nm` that carries an `ABBR`
sub-child valued `ab`? (Claim C7.) -/
def nameCarries (rec : Node) (nm ab : Str) : Bool :=
  rec.children.any (fun c =>
    c.tag == "NAME".toList && c.value == nm
      && c.children.any (fun s => s.tag == "ABBR".toList && s.value == ab))

/-- A line on which `parse_gedcom_lines` raises `IndexError`: non-blank, the
first space-segment parses as an integer, and there is no second segment. -/
def lineRaises (l : Str) : Bool :=
  let s := pyStrip l
  if s.isEmpty then false
  else
    match splitChar ' ' 2 s with
    | [p0] => (pyInt p0).isSome
    | _ => false

/-! ## Well-formedness of parsed trees (used for the round-trip claim) -/

/-- Is the last character (if any) not whitespace? -/
def lastNotWhite (s : Str) : Bool :=
  match s.getLast? with
  | none => true
  | some c => !isPyWhite c

/-- Free of line-terminator characters. -/
def cleanStr (s : Str) : Bool := !(s.contains '\n') && !(s.contains '\x0d')

/-- Token quality guaranteed by the tokenizer and sufficient for the
serialize-retokenize round trip. -/
def goodTokB (t : Tok) : Bool :=
  !(t.tag.contains ' ') && cleanStr t.tag && cleanStr t.value
    && lastNotWhite t.value
    && (!t.value.isEmpty || t.tag.isEmpty || lastNotWhite t.tag)
    && (match t.xref with
        | some x => pyStarts x ['@'] && pyEnds x ['@'] && !(x.contains ' ') && cleanStr x
        | none => !(pyStarts t.tag ['@'] && pyEnds t.tag ['@'])
            && (!t.tag.isEmpty || !t.value.isEmpty))

mutual
/-- Well-formedness of a subtree hanging below a parent of level `pl`. -/
def wfNode (pl : Int) : Node → Bool
  | ⟨l, t, v, x, ch⟩ => goodTokB ⟨l, x, t, v⟩ && decide (pl < l) && wfChildren l ch
/-- Children lists carry non-increasing levels between consecutive siblings. -/
def wfChildren (pl : Int) : List Node → Bool
  | [] => true
  | [c] => wfNode pl c
  | c1 :: c2 :: rest => wfNode pl c1 && decide (c2.level ≤ c1.level) && wfChildren pl (c2 :: rest)
end

/-- Well-formedness of a parsed top-level record. -/
def wfRoot (n : Node) : Bool :=
  goodTokB (tokOf n) && n.level == 0 && !isGarbage (tokOf n) && wfChildren 0 n.children

mutual
/-- The serialized lines of one node, as a list of lines. -/
def linesOf : Node → List Str
  | ⟨l, t, v, x, ch⟩ => serializeFields l x t v :: linesOfList ch
def linesOfList : List Node → List Str
  | [] => []
  | c :: cs => linesOf c ++ linesOfList cs
end

/-- Is the last child's level at least `l`? (Trivially true with no children.) -/
def lastLevelGE (l : Int) (ch : List Node) : Prop :=
  match ch.getLast? with
  | none => True
  | some c => l ≤ c.level

/-- The parser's stack invariant: levels strictly decrease top-to-bottom,
the bottom entry is a well-formed non-garbage level-0 record, every entry's
node carries its level and good header fields with well-formed children so
far, and each entry's level is at most the level of the node below it's last
attached child. -/
def StackOK : List (Int × Node) → Prop
  | [] => True
  | [(l, n)] =>
      n.level = l ∧ l = 0 ∧ goodTokB (tokOf n) = true
        ∧ isGarbage (tokOf n) = false ∧ wfChildren l n.children = true
  | (l, n) :: (l', p) :: rest =>
      n.level = l ∧ goodTokB (tokOf n) = true ∧ wfChildren l n.children = true
        ∧ l' < l ∧ lastLevelGE l p.children ∧ StackOK ((l', p) :: rest)

/-- Between lines, the top stack entry has not yet received any child. -/
def TopEmpty : List (Int × Node) → Prop
  | [] => True
  | (_, n) :: _ => n.children = []

/-- A child the merge pass carries over into `preserved_children`
(tag outside NAME/_LOC/CHAN; unique-id children are among these). -/
def keepChild (c : Node) : Bool :=
  !(c.tag == "NAME".toList) && !(c.tag == "_LOC".toList) && !(c.tag == "CHAN".toList)

/-- All abbreviation values recorded for key `k` by the merge pass, in
recording order. -/
def abbrCands (k : Str) (cs : List Node) : List Str :=
  cs.flatMap (fun c =>
    if c.tag == "NAME".toList && c.value == k
    then (c.children.filter (fun s => s.tag == "ABBR".toList)).map (fun s => s.value)
    else [])

/-- The parser loop invariant: every finished record is a well-formed root and
the stack is well-formed with an untouched top entry. -/
def InvP (st : PState) : Prop :=
  (∀ r ∈ st.records, wfRoot r = true) ∧ StackOK st.stack ∧ TopEmpty st.stack

theorem digitVal_digitChar (n : Nat) (h : n < 10) : digitVal (digitChar n) = some n := by
  interval_cases n <;> decide

theorem digitVal_isSome_not_white (c : Char) (d : Nat) (h : digitVal c = some d) :
    isPyWhite c = false := by
  unfold digitVal at h
  split_ifs at h <;> simp_all <;> decide

theorem digitVal_digitChar_mod (n : Nat) : digitVal (digitChar (n % 10)) = some (n % 10) :=
  digitVal_digitChar _ (Nat.mod_lt _ (by omega))

theorem natToStrGo_spec (n : Nat) : ∀ fuel acc, n ≤ fuel → natToStrGo fuel n acc = natToStr n ++ acc := by
  induction n using Nat.strong_induction_on with
  | _ n ih =>
    intro fuel acc hle
    by_cases h10 : n < 10
    · have hgo : ∀ f a, natToStrGo f n a = digitChar n :: a := by
        intro f a
        match f with
        | 0 =>
          interval_cases n <;> rfl
        | f + 1 => simp [natToStrGo, h10]
      rw [hgo, natToStr, hgo]
      rfl
    · push_neg at h10
      have hn0 : n ≠ 0 := by omega
      have hdiv : n / 10 < n := Nat.div_lt_self (by omega) (by omega)
      match fuel with
      | 0 => omega
      | fuel + 1 =>
        have h1 : natToStrGo (fuel + 1) n acc
            = natToStrGo fuel (n / 10) (digitChar (n % 10) :: acc) := by
          simp [natToStrGo, Nat.not_lt.mpr h10]
        have h2 : natToStr n = natToStr (n / 10) ++ [digitChar (n % 10)] := by
          match hm : n with
          | m + 1 =>
            have : natToStr (m + 1) = natToStrGo (m + 1) (m + 1) [] := rfl
            rw [this]
            have : natToStrGo (m + 1) (m + 1) []
                = natToStrGo m ((m + 1) / 10) [digitChar ((m + 1) % 10)] := by
              rw [natToStrGo, if_neg (by omega)]
            rw [this, ih ((m + 1) / 10) (by omega) m [digitChar ((m + 1) % 10)] (by omega)]
        rw [h1, ih (n / 10) hdiv fuel (digitChar (n % 10) :: acc) (by omega), h2]
        simp

theorem natToStr_lt10 (n : Nat) (h : n < 10) : natToStr n = [digitChar n] := by
  have := natToStrGo_spec n n [] (le_refl n)
  interval_cases n <;> rfl

theorem natToStr_ge10 (n : Nat) (h : 10 ≤ n) :
    natToStr n = natToStr (n / 10) ++ [digitChar (n % 10)] := by
  match hm : n with
  | m + 1 =>
    show natToStrGo (m + 1) (m + 1) [] = _
    have h1 : natToStrGo (m + 1) (m + 1) []
        = natToStrGo m ((m + 1) / 10) [digitChar ((m + 1) % 10)] := by
      rw [natToStrGo, if_neg (by omega)]
    rw [h1, natToStrGo_spec ((m + 1) / 10) m [digitChar ((m + 1) % 10)] (by omega)]

theorem natToStr_ne_nil (n : Nat) : natToStr n ≠ [] := by
  by_cases h : n < 10
  · rw [natToStr_lt10 n h]; simp
  · rw [natToStr_ge10 n (by omega)]; simp

theorem natToStr_digits (n : Nat) : ∀ c ∈ natToStr n, (digitVal c).isSome := by
  induction n using Nat.strong_induction_on with
  | _ n ih =>
    by_cases h : n < 10
    · rw [natToStr_lt10 n h]
      intro c hc
      simp at hc
      subst hc
      rw [digitVal_digitChar n h]
      rfl
    · rw [natToStr_ge10 n (by omega)]
      intro c hc
      rcases List.mem_append.mp hc with h1 | h2
      · exact ih (n / 10) (Nat.div_lt_self (by omega) (by omega)) c h1
      · simp at h2
        subst h2
        rw [digitVal_digitChar_mod]
        rfl

theorem digitsToNatAux_append (a : Nat) (xs ys : Str) :
    digitsToNatAux a (xs ++ ys)
      = (digitsToNatAux a xs).bind (fun v => digitsToNatAux v ys) := by
  induction xs generalizing a with
  | nil => rfl
  | cons c t ihx =>
    simp only [List.cons_append, digitsToNatAux]
    match digitVal c with
    | some d => exact ihx _
    | none => rfl

theorem digitsToNatAux_natToStr (n : Nat) :
    ∀ a, digitsToNatAux a (natToStr n) = some (a * 10 ^ (natToStr n).length + n) := by
  induction n using Nat.strong_induction_on with
  | _ n ih =>
    intro a
    by_cases h : n < 10
    · rw [natToStr_lt10 n h]
      simp [digitsToNatAux, digitVal_digitChar n h]
    · rw [natToStr_ge10 n (by omega), digitsToNatAux_append]
      rw [ih (n / 10) (Nat.div_lt_self (by omega) (by omega)) a]
      simp only [Option.some_bind, digitsToNatAux, digitVal_digitChar_mod, List.length_append,
        List.length_cons, List.length_nil]
      congr 1
      have hd : 10 * (n / 10) + n % 10 = n := Nat.div_add_mod n 10
      have hpow : (10 : Nat) ^ ((natToStr (n / 10)).length + (0 + 1))
          = 10 ^ (natToStr (n / 10)).length * 10 := by
        rw [Nat.zero_add, pow_succ]
      rw [hpow]
      have key : (a * 10 ^ (natToStr (n / 10)).length + n / 10) * 10 + n % 10
          = a * (10 ^ (natToStr (n / 10)).length * 10) + (10 * (n / 10) + n % 10) := by ring
      rw [key, hd]

theorem digitsToNat_natToStr (n : Nat) : digitsToNat (natToStr n) = some n := by
  have h := digitsToNatAux_natToStr n 0
  unfold digitsToNat
  match hs : natToStr n with
  | [] => exact absurd hs (natToStr_ne_nil n)
  | c :: t =>
    rw [hs] at h
    simpa using h

theorem dropWhile_eq_self_of_all {p : Char → Bool} {s : Str}
    (h : ∀ c ∈ s, p c = false) : s.dropWhile p = s := by
  cases s with
  | nil => rfl
  | cons c t => simp [List.dropWhile_cons, h c (by simp)]

theorem pyStrip_eq_self_of_all {s : Str} (h : ∀ c ∈ s, isPyWhite c = false) :
    pyStrip s = s := by
  unfold pyStrip
  rw [dropWhile_eq_self_of_all h, dropWhile_eq_self_of_all (by intro c hc; exact h c (by simpa using hc)),
    List.reverse_reverse]

theorem natToStr_not_white (n : Nat) : ∀ c ∈ natToStr n, isPyWhite c = false := by
  intro c hc
  have := natToStr_digits n c hc
  match hd : digitVal c with
  | some d => exact digitVal_isSome_not_white c d hd
  | none => rw [hd] at this; exact absurd this (by simp)

theorem digitVal_isSome_props (c : Char) (d : Nat) (h : digitVal c = some d) :
    c ≠ '-' ∧ c ≠ '+' ∧ c ≠ '@' ∧ c ≠ '\n' := by
  unfold digitVal at h
  split_ifs at h <;> simp_all

theorem pyInt_natToStr (n : Nat) : pyInt (natToStr n) = some (n : Int) := by
  unfold pyInt
  rw [pyStrip_eq_self_of_all (natToStr_not_white n)]
  match hs : natToStr n with
  | [] => exact absurd hs (natToStr_ne_nil n)
  | c :: t =>
    have hdig : (digitVal c).isSome := natToStr_digits n c (by rw [hs]; simp)
    match hd : digitVal c with
    | none => rw [hd] at hdig; exact absurd hdig (by simp)
    | some d =>
      obtain ⟨h1, h2, _, _⟩ := digitVal_isSome_props c d hd
      have key : digitsToNat (c :: t) = some n := by rw [← hs]; exact digitsToNat_natToStr n
      dsimp only
      rw [if_neg h1, if_neg h2, key]
      rfl

theorem pyInt_intToStr (i : Int) : pyInt (intToStr i) = some i := by
  unfold intToStr
  by_cases h : i < 0
  · rw [if_pos h]
    have hnw : ∀ c ∈ '-' :: natToStr (-i).toNat, isPyWhite c = false := by
      intro c hc
      rcases (List.mem_cons).mp hc with h1 | h2
      · subst h1; decide
      · exact natToStr_not_white _ c h2
    unfold pyInt
    rw [pyStrip_eq_self_of_all hnw]
    dsimp only
    rw [if_pos rfl, digitsToNat_natToStr]
    simp
    omega
  · rw [if_neg h]
    rw [pyInt_natToStr]
    congr 1
    omega

theorem scanChild_preserved (a : ScanAcc) (c : Node) :
    (scanChild a c).preserved = a.preserved ++ (if keepChild c then [c] else []) := by
  by_cases h1 : c.tag = "NAME".toList <;>
    by_cases h2 : c.tag = "_UID".toList <;>
    by_cases h3 : c.tag = "CHAN".toList <;>
    by_cases h4 : c.tag = "_LOC".toList <;>
    simp_all [scanChild, keepChild]

theorem scanChild_hasUid (a : ScanAcc) (c : Node) :
    (scanChild a c).hasUid = (a.hasUid || c.tag == "_UID".toList) := by
  by_cases h1 : c.tag = "NAME".toList <;>
    by_cases h2 : c.tag = "_UID".toList <;>
    by_cases h3 : c.tag = "CHAN".toList <;>
    by_cases h4 : c.tag = "_LOC".toList <;>
    simp_all [scanChild]

theorem scanChild_chan (a : ScanAcc) (c : Node) :
    (scanChild a c).existingChan
      = if c.tag == "CHAN".toList then some c else a.existingChan := by
  by_cases h1 : c.tag = "NAME".toList <;>
    by_cases h2 : c.tag = "_UID".toList <;>
    by_cases h3 : c.tag = "CHAN".toList <;>
    by_cases h4 : c.tag = "_LOC".toList <;>
    simp_all [scanChild]

theorem scanChild_abbrs (a : ScanAcc) (c : Node) :
    (scanChild a c).nameAbbrs
      = if c.tag == "NAME".toList
        then c.children.foldl
          (fun m sub => if sub.tag == "ABBR".toList then abbrInsert c.value sub.value m else m)
          a.nameAbbrs
        else a.nameAbbrs := by
  by_cases h1 : c.tag = "NAME".toList <;>
    by_cases h2 : c.tag = "_UID".toList <;>
    by_cases h3 : c.tag = "CHAN".toList <;>
    by_cases h4 : c.tag = "_LOC".toList <;>
    simp_all [scanChild]

theorem scan_preserved (cs : List Node) :
    ∀ a : ScanAcc, (cs.foldl scanChild a).preserved = a.preserved ++ cs.filter keepChild := by
  induction cs with
  | nil => intro a; simp
  | cons c t ih =>
    intro a
    rw [List.foldl_cons, ih, scanChild_preserved, List.filter_cons]
    by_cases h : keepChild c = true <;> simp [h]

theorem scan_hasUid (cs : List Node) :
    ∀ a : ScanAcc, (cs.foldl scanChild a).hasUid
      = (a.hasUid || cs.any (fun c => c.tag == "_UID".toList)) := by
  induction cs with
  | nil => intro a; simp
  | cons c t ih =>
    intro a
    rw [List.foldl_cons, ih, scanChild_hasUid, List.any_cons]
    cases a.hasUid <;> cases hc : c.tag == "_UID".toList <;> simp

theorem getLast?_cons_eq {α : Type} (c : α) (l : List α) :
    (c :: l).getLast? = match l.getLast? with | some x => some x | none => some c := by
  cases l with
  | nil => rfl
  | cons x t =>
    rw [List.getLast?_cons_cons]
    match h : (x :: t).getLast? with
    | some y => rfl
    | none => exact absurd h (by simp)

theorem scan_chan (cs : List Node) :
    ∀ a : ScanAcc, (cs.foldl scanChild a).existingChan
      = match (cs.filter (fun c => c.tag == "CHAN".toList)).getLast? with
        | some c => some c
        | none => a.existingChan := by
  induction cs with
  | nil => intro a; simp
  | cons c t ih =>
    intro a
    rw [List.foldl_cons, ih, scanChild_chan, List.filter_cons]
    by_cases h : c.tag = "CHAN".toList
    · simp only [h, beq_self_eq_true, if_true, ite_true]
      rw [getLast?_cons_eq]
      cases ht : (List.filter (fun x => x.tag == "CHAN".toList) t).getLast? <;> rfl
    · have h' : ¬c.tag = ['C', 'H', 'A', 'N'] := h
      simp [h']

theorem find?_filter_of {α : Type} (p q : α → Bool) (l : List α)
    (h : ∀ x, p x = true → q x = true) : (l.filter q).find? p = l.find? p := by
  induction l with
  | nil => rfl
  | cons x t ih =>
    rw [List.filter_cons]
    by_cases hq : q x = true
    · simp only [hq, if_true, ite_true]
      rw [List.find?_cons, List.find?_cons]
      cases hp : p x <;> simp [ih]
    · have hq' : q x = false := by revert hq; cases q x <;> simp
      have hp : p x = false := by
        cases hpx : p x
        · rfl
        · exact absurd (h x hpx) hq
      simp only [hq', Bool.false_eq_true, if_false, ite_false]
      rw [ih, List.find?_cons, hp]

theorem abbrLookup_insert (k k' v : Str) (m : List (Str × Str)) :
    abbrLookup k (abbrInsert k' v m) = if k = k' then some v else abbrLookup k m := by
  unfold abbrLookup abbrInsert
  by_cases h : k = k'
  · subst h
    rw [List.find?_cons]
    simp
  · rw [List.find?_cons]
    have hne : ((k', v).1 == k) = false := beq_eq_false_iff_ne.mpr (Ne.symm h)
    rw [hne]
    simp only [if_neg h]
    rw [find?_filter_of]
    intro x hx
    have hx' : x.1 = k := eq_of_beq hx
    exact bne_iff_ne.mpr (hx' ▸ h)

theorem inner_abbr_fold (cval k : Str) (subs : List Node) :
    ∀ m, abbrLookup k
        (subs.foldl
          (fun m sub => if sub.tag == "ABBR".toList then abbrInsert cval sub.value m else m) m)
      = if k = cval then
          (match ((subs.filter (fun s => s.tag == "ABBR".toList)).map (fun s => s.value)).getLast? with
           | some v => some v
           | none => abbrLookup k m)
        else abbrLookup k m := by
  induction subs with
  | nil =>
    intro m
    by_cases h : k = cval <;> simp [h]
  | cons s t ih =>
    intro m
    rw [List.foldl_cons, ih, List.filter_cons]
    by_cases hs : s.tag = "ABBR".toList
    · have hb : (s.tag == "ABBR".toList) = true := by simp [hs]
      rw [hb]
      simp only [if_true, ite_true, List.map_cons]
      by_cases h : k = cval
      · simp only [h, if_true, ite_true]
        rw [getLast?_cons_eq]
        cases ht : ((t.filter (fun s => s.tag == "ABBR".toList)).map (fun s => s.value)).getLast?
        · rw [abbrLookup_insert]
          simp [h]
        · rfl
      · simp only [if_neg h]
        rw [abbrLookup_insert, if_neg h]
    · have hb : (s.tag == "ABBR".toList) = false := beq_eq_false_iff_ne.mpr hs
      rw [hb]
      simp

theorem scan_abbr (cs : List Node) :
    ∀ a : ScanAcc, ∀ k,
      abbrLookup k (cs.foldl scanChild a).nameAbbrs
        = match (abbrCands k cs).getLast? with
          | some v => some v
          | none => abbrLookup k a.nameAbbrs := by
  induction cs with
  | nil => intro a k; simp [abbrCands]
  | cons c t ih =>
    intro a k
    rw [List.foldl_cons, ih]
    have hcands : abbrCands k (c :: t)
        = (if c.tag == "NAME".toList && c.value == k
           then (c.children.filter (fun s => s.tag == "ABBR".toList)).map (fun s => s.value)
           else []) ++ abbrCands k t := by
      simp [abbrCands]
    rw [hcands]
    by_cases hn : c.tag = "NAME".toList
    · have hb : (c.tag == "NAME".toList) = true := by simp [hn]
      by_cases hv : c.value = k
      · have hbv : (c.value == k) = true := by simp [hv]
        rw [hb, hbv]
        simp only [Bool.and_self, if_true, ite_true]
        cases ht : (abbrCands k t).getLast? with
        | some v =>
          have hne : abbrCands k t ≠ [] := by
            intro hnil
            rw [hnil] at ht
            exact absurd ht (by simp)
          rw [List.getLast?_append_of_ne_nil _ hne, ht]
        | none =>
          have htn : abbrCands k t = [] := List.getLast?_eq_none_iff.mp ht
          rw [htn, List.append_nil]
          have := scanChild_abbrs a c
          rw [hb] at this
          simp only [if_true, ite_true] at this
          rw [this, inner_abbr_fold, hv, if_pos rfl]
      · have hbv : (c.value == k) = false := by simp [hv]
        rw [hb, hbv]
        simp only [Bool.and_false, Bool.false_eq_true, if_false, ite_false, List.nil_append]
        have := scanChild_abbrs a c
        rw [hb] at this
        simp only [if_true, ite_true] at this
        rw [this, inner_abbr_fold, if_neg (fun hh => hv hh.symm)]
    · have hb : (c.tag == "NAME".toList) = false := beq_eq_false_iff_ne.mpr hn
      rw [hb]
      simp only [Bool.false_and, Bool.false_eq_true, if_false, ite_false, List.nil_append]
      have := scanChild_abbrs a c
      rw [hb] at this
      simp only [Bool.false_eq_true, if_false, ite_false] at this
      rw [this]

theorem keepChild_of_uid {c : Node} (h : c.tag = "_UID".toList) : keepChild c = true := by
  rw [keepChild, h]
  decide

theorem uid_and_keep (c : Node) :
    ((c.tag == "_UID".toList) && keepChild c) = (c.tag == "_UID".toList) := by
  cases hb : (c.tag == "_UID".toList)
  · rfl
  · rw [keepChild_of_uid (eq_of_beq hb)]
    rfl

theorem notuid_and_keep (c : Node) :
    ((!(c.tag == "_UID".toList)) && keepChild c)
      = (!(c.tag == "NAME".toList) && !(c.tag == "_LOC".toList)
          && !(c.tag == "CHAN".toList) && !(c.tag == "_UID".toList)) := by
  rw [keepChild]
  cases h1 : (c.tag == "NAME".toList) <;> cases h2 : (c.tag == "_LOC".toList) <;>
    cases h3 : (c.tag == "CHAN".toList) <;> cases h4 : (c.tag == "_UID".toList) <;> rfl

theorem option_match_none {α : Type} (o : Option α) :
    (match o with | some c => some c | none => none) = o := by
  cases o <;> rfl

theorem update_record_children (uid dateStr timeStr : Str) (rec : Node) (item : YamlItem) :
    (update_record uid dateStr timeStr rec item).children
      = claimUidPart uid rec ++ [claimChanPart dateStr timeStr rec] ++ claimPreservedPart rec
        ++ (match item.names with
            | some ns => ns.map (mkNameNode (abbrsOf rec))
            | none => [])
        ++ (match item.parents with
            | some ps => ps.filterMap mkParentNode
            | none => []) := by
  have hpres : (rec.children.foldl scanChild ⟨[], [], false, none⟩).preserved
      = rec.children.filter keepChild := by
    rw [scan_preserved]
    simp
  have huid : (rec.children.foldl scanChild ⟨[], [], false, none⟩).hasUid
      = rec.children.any (fun c => c.tag == "_UID".toList) := by
    rw [scan_hasUid]
    simp
  have hchan : (rec.children.foldl scanChild ⟨[], [], false, none⟩).existingChan
      = (rec.children.filter (fun c => c.tag == "CHAN".toList)).getLast? := by
    rw [scan_chan]
    cases hlast : (rec.children.filter (fun c => c.tag == "CHAN".toList)).getLast? <;> rfl
  have hab : (rec.children.foldl scanChild ⟨[], [], false, none⟩).nameAbbrs = abbrsOf rec := rfl
  unfold update_record
  dsimp only
  rw [hpres, huid, hchan, hab]
  by_cases hu : rec.children.any (fun c => c.tag == "_UID".toList) = true
  · rw [if_pos hu]
    have e1 : (rec.children.filter keepChild).filter (fun c => c.tag == "_UID".toList)
        = claimUidPart uid rec := by
      rw [List.filter_filter, claimUidPart, if_pos hu]
      exact List.filter_congr (fun c _ => uid_and_keep c)
    have e2 : (rec.children.filter keepChild).filter (fun c => !(c.tag == "_UID".toList))
        = claimPreservedPart rec := by
      rw [List.filter_filter, claimPreservedPart]
      exact List.filter_congr (fun c _ => notuid_and_keep c)
    rw [e1, e2, claimChanPart]
  · rw [if_neg hu]
    have hu' : rec.children.any (fun c => c.tag == "_UID".toList) = false := by
      revert hu
      cases rec.children.any (fun c => c.tag == "_UID".toList) <;> simp
    have e0 : (rec.children.filter keepChild).filter (fun c => c.tag == "_UID".toList) = [] := by
      rw [List.filter_filter]
      rw [List.filter_congr (fun c _ => uid_and_keep c)]
      rw [List.filter_eq_nil_iff]
      intro c hc
      have := List.any_eq_false.mp hu' c hc
      simpa using this
    have e1 : (uidNode uid :: rec.children.filter keepChild).filter
          (fun c => c.tag == "_UID".toList) = claimUidPart uid rec := by
      rw [List.filter_cons]
      have huidtag : ((uidNode uid).tag == "_UID".toList) = true := beq_self_eq_true "_UID".toList
      rw [huidtag]
      simp only [if_true, ite_true, e0, claimUidPart, hu']
      simp
    have e2 : (uidNode uid :: rec.children.filter keepChild).filter
          (fun c => !(c.tag == "_UID".toList)) = claimPreservedPart rec := by
      rw [List.filter_cons]
      have huidtag : (!((uidNode uid).tag == "_UID".toList)) = false := by
        simp [uidNode]
      rw [huidtag]
      simp only [Bool.false_eq_true, if_false, ite_false]
      rw [List.filter_filter, claimPreservedPart]
      exact List.filter_congr (fun c _ => notuid_and_keep c)
    rw [e1, e2, claimChanPart]

theorem claimUidPart_tags (uid : Str) (rec : Node) :
    ∀ x ∈ claimUidPart uid rec, x.tag = "_UID".toList := by
  intro x hx
  unfold claimUidPart at hx
  by_cases h : rec.children.any (fun c => c.tag == "_UID".toList) = true
  · rw [if_pos h] at hx
    exact eq_of_beq (List.mem_filter.mp hx).2
  · rw [if_neg h] at hx
    simp at hx
    rw [hx]
    rfl

theorem claimUidPart_ne_nil (uid : Str) (rec : Node) : claimUidPart uid rec ≠ [] := by
  unfold claimUidPart
  by_cases h : rec.children.any (fun c => c.tag == "_UID".toList) = true
  · rw [if_pos h]
    obtain ⟨x, hx, hpx⟩ := List.any_eq_true.mp h
    intro hnil
    have : x ∈ List.filter (fun c => c.tag == "_UID".toList) rec.children :=
      List.mem_filter.mpr ⟨hx, hpx⟩
    rw [hnil] at this
    exact absurd this (List.not_mem_nil x)
  · rw [if_neg h]
    simp

theorem claimChanPart_tag (dateStr timeStr : Str) (rec : Node) :
    (claimChanPart dateStr timeStr rec).tag = "CHAN".toList := by
  unfold claimChanPart
  cases hl : (rec.children.filter (fun c => c.tag == "CHAN".toList)).getLast? with
  | some c =>
    have hm := List.mem_of_getLast?_eq_some hl
    exact (eq_of_beq (List.mem_filter.mp hm).2 : c.tag = "CHAN".toList)
  | none => rfl

theorem claimPreservedPart_tags (rec : Node) :
    ∀ x ∈ claimPreservedPart rec,
      x.tag ≠ "NAME".toList ∧ x.tag ≠ "_LOC".toList
        ∧ x.tag ≠ "CHAN".toList ∧ x.tag ≠ "_UID".toList := by
  intro x hx
  unfold claimPreservedPart at hx
  have := List.of_mem_filter hx
  simp only [Bool.and_eq_true, Bool.not_eq_true'] at this
  obtain ⟨⟨⟨h1, h2⟩, h3⟩, h4⟩ := this
  exact ⟨by simpa using beq_eq_false_iff_ne.mp h1, by simpa using beq_eq_false_iff_ne.mp h2,
    by simpa using beq_eq_false_iff_ne.mp h3, by simpa using beq_eq_false_iff_ne.mp h4⟩

theorem parentNodes_tags (ps : List YamlParent) :
    ∀ x ∈ ps.filterMap mkParentNode, x.tag = "_LOC".toList := by
  intro x hx
  obtain ⟨p, _, hp⟩ := List.mem_filterMap.mp hx
  unfold mkParentNode at hp
  match hid : p.id with
  | none => rw [hid] at hp; exact absurd hp (by simp)
  | some pid =>
    rw [hid] at hp
    dsimp only at hp
    cases he : pid.isEmpty
    · rw [he] at hp
      simp only [Bool.false_eq_true, if_false, ite_false] at hp
      rw [← Option.some.inj hp]
    · rw [he] at hp
      simp at hp

theorem filter_tag_eq_nil {T : Str} {l : List Node} (h : ∀ x ∈ l, x.tag ≠ T) :
    l.filter (fun c => c.tag == T) = [] := by
  rw [List.filter_eq_nil_iff]
  intro x hx
  simp [h x hx]

theorem filter_tag_eq_self {T : Str} {l : List Node} (h : ∀ x ∈ l, x.tag = T) :
    l.filter (fun c => c.tag == T) = l := by
  rw [List.filter_eq_self]
  intro x hx
  simp [h x hx]

theorem getLast?_of_all_eq {α : Type} {l : List α} {a : α} (hne : l ≠ [])
    (hall : ∀ x ∈ l, x = a) : l.getLast? = some a := by
  cases hl : l.getLast? with
  | none => exact absurd (List.getLast?_eq_none_iff.mp hl) hne
  | some y => rw [hall y (List.mem_of_getLast?_eq_some hl)]

theorem nameNodes_tags (ab : List (Str × Str)) (ns : List YamlName) :
    ∀ x ∈ ns.map (mkNameNode ab), x.tag = "NAME".toList := by
  intro x hx
  obtain ⟨n, _, hn⟩ := List.mem_map.mp hx
  rw [← hn]
  rfl

theorem mkNameNode_congr {m1 m2 : List (Str × Str)} (n : YamlName)
    (h : abbrLookup n.name m1 = abbrLookup n.name m2) :
    mkNameNode m1 n = mkNameNode m2 n := by
  unfold mkNameNode
  rw [h]

theorem abbrsOf_lookup (x : Node) (k : Str) :
    abbrLookup k (abbrsOf x) = (abbrCands k x.children).getLast? := by
  unfold abbrsOf
  rw [scan_abbr]
  cases h : (abbrCands k x.children).getLast? <;> rfl

theorem abbrCands_append (k : Str) (l1 l2 : List Node) :
    abbrCands k (l1 ++ l2) = abbrCands k l1 ++ abbrCands k l2 := by
  unfold abbrCands
  rw [List.flatMap_append]

theorem abbrCands_eq_nil {k : Str} {l : List Node} (h : ∀ x ∈ l, x.tag ≠ "NAME".toList) :
    abbrCands k l = [] := by
  unfold abbrCands
  rw [List.flatMap_eq_nil_iff]
  intro x hx
  have : (x.tag == "NAME".toList) = false := beq_eq_false_iff_ne.mpr (h x hx)
  rw [this]
  rfl

/-- The abbreviation candidates collected from the freshly rebuilt name
children: one entry per external name matching `k`, always carrying the value
the first pass looked up. -/
theorem abbrCands_nameNodes (k : Str) (ab : List (Str × Str)) (ns : List YamlName) :
    abbrCands k (ns.map (mkNameNode ab))
      = ns.flatMap (fun n =>
          if n.name = k then
            (match abbrLookup k ab with
             | some a => [a]
             | none => [])
          else []) := by
  unfold abbrCands
  rw [List.flatMap_map]
  congr 1
  funext n
  have htag : ((mkNameNode ab n).tag == "NAME".toList) = true := beq_self_eq_true _
  by_cases hv : n.name = k
  · rw [if_pos hv]
    have hbv : ((mkNameNode ab n).value == k) = true := by
      show (n.name == k) = true
      rw [hv]
      exact beq_self_eq_true k
    rw [htag, hbv]
    simp only [Bool.and_self, eq_self_iff_true, if_true, ite_true]
    rw [← hv]
    cases ha : abbrLookup n.name ab <;> cases hp : n.period <;>
      simp [mkNameNode, ha, hp]
  · rw [if_neg hv]
    have hbv : ((mkNameNode ab n).value == k) = false := by
      show (n.name == k) = false
      exact beq_eq_false_iff_ne.mpr hv
    rw [htag, hbv]
    simp

theorem update_eq_self_of_children (u d t : Str) (r : Node) (item : YamlItem)
    (h : (update_record u d t r item).children = r.children) :
    update_record u d t r item = r := by
  cases r with
  | mk l tg v x ch =>
    unfold update_record at h ⊢
    dsimp only at h ⊢
    rw [h]

/-- The five-segment decomposition of a merged node's children, with all
segment tags classified. -/
theorem merged_children_split (u d t : Str) (rec : Node) (item : YamlItem) :
    ∃ U C P N L,
      (update_record u d t rec item).children = U ++ [C] ++ P ++ N ++ L
        ∧ U ≠ [] ∧ (∀ x ∈ U, x.tag = "_UID".toList)
        ∧ C.tag = "CHAN".toList
        ∧ (∀ x ∈ P, x.tag ≠ "NAME".toList ∧ x.tag ≠ "_LOC".toList
            ∧ x.tag ≠ "CHAN".toList ∧ x.tag ≠ "_UID".toList)
        ∧ (∀ x ∈ N, x.tag = "NAME".toList)
        ∧ (∀ x ∈ L, x.tag = "_LOC".toList)
        ∧ U = claimUidPart u rec
        ∧ C = claimChanPart d t rec
        ∧ P = claimPreservedPart rec
        ∧ N = (match item.names with
               | some ns => ns.map (mkNameNode (abbrsOf rec))
               | none => [])
        ∧ L = (match item.parents with
               | some ps => ps.filterMap mkParentNode
               | none => []) := by
  refine ⟨claimUidPart u rec, claimChanPart d t rec, claimPreservedPart rec, _, _,
    update_record_children u d t rec item, claimUidPart_ne_nil u rec, claimUidPart_tags u rec,
    claimChanPart_tag d t rec, claimPreservedPart_tags rec, ?_, ?_, rfl, rfl, rfl, rfl, rfl⟩
  · cases hn : item.names with
    | none => intro x hx; exact absurd hx (List.not_mem_nil x)
    | some ns => exact nameNodes_tags _ ns
  · cases hp : item.parents with
    | none => intro x hx; exact absurd hx (List.not_mem_nil x)
    | some ps => exact parentNodes_tags ps

theorem fourTag_false_of_uid {x : Node} (h : x.tag = "_UID".toList) :
    (!(x.tag == "NAME".toList) && !(x.tag == "_LOC".toList)
      && !(x.tag == "CHAN".toList) && !(x.tag == "_UID".toList)) = false := by
  rw [h]
  decide

theorem fourTag_false_of_name {x : Node} (h : x.tag = "NAME".toList) :
    (!(x.tag == "NAME".toList) && !(x.tag == "_LOC".toList)
      && !(x.tag == "CHAN".toList) && !(x.tag == "_UID".toList)) = false := by
  rw [h]
  decide

theorem fourTag_false_of_chan {x : Node} (h : x.tag = "CHAN".toList) :
    (!(x.tag == "NAME".toList) && !(x.tag == "_LOC".toList)
      && !(x.tag == "CHAN".toList) && !(x.tag == "_UID".toList)) = false := by
  rw [h]
  decide

theorem fourTag_false_of_loc {x : Node} (h : x.tag = "_LOC".toList) :
    (!(x.tag == "NAME".toList) && !(x.tag == "_LOC".toList)
      && !(x.tag == "CHAN".toList) && !(x.tag == "_UID".toList)) = false := by
  rw [h]
  decide

theorem fourTag_true_of_ne {x : Node} (h1 : x.tag ≠ "NAME".toList) (h2 : x.tag ≠ "_LOC".toList)
    (h3 : x.tag ≠ "CHAN".toList) (h4 : x.tag ≠ "_UID".toList) :
    (!(x.tag == "NAME".toList) && !(x.tag == "_LOC".toList)
      && !(x.tag == "CHAN".toList) && !(x.tag == "_UID".toList)) = true := by
  rw [beq_eq_false_iff_ne.mpr h1, beq_eq_false_iff_ne.mpr h2,
    beq_eq_false_iff_ne.mpr h3, beq_eq_false_iff_ne.mpr h4]
  rfl

theorem update_record_idem (rec : Node) (item : YamlItem) (u1 d1 t1 u2 d2 t2 : Str) :
    update_record u2 d2 t2 (update_record u1 d1 t1 rec item) item
      = update_record u1 d1 t1 rec item := by
  obtain ⟨U, C, P, N, L, hsplit, hUne, hUtags, hCtag, hPtags, hNtags, hLtags,
    hU, hC, hP, hN, hL⟩ := merged_children_split u1 d1 t1 rec item
  set res := update_record u1 d1 t1 rec item with hres
  apply update_eq_self_of_children
  rw [update_record_children, hsplit]
  have memtag : ∀ T : Str, ∀ x ∈ U ++ [C] ++ P ++ N ++ L,
      x ∈ U ∨ x = C ∨ x ∈ P ∨ x ∈ N ∨ x ∈ L := by
    intro T x hx
    simp only [List.mem_append, List.mem_singleton] at hx
    tauto
  have hCne_uid : ∀ x ∈ [C], x.tag ≠ "_UID".toList := by
    intro x hx
    simp only [List.mem_singleton] at hx
    rw [hx, hCtag]
    decide
  have hPne_uid : ∀ x ∈ P, x.tag ≠ "_UID".toList := fun x hx => (hPtags x hx).2.2.2
  have hNne_uid : ∀ x ∈ N, x.tag ≠ "_UID".toList := by
    intro x hx
    rw [hNtags x hx]
    decide
  have hLne_uid : ∀ x ∈ L, x.tag ≠ "_UID".toList := by
    intro x hx
    rw [hLtags x hx]
    decide
  have hfilU : (U ++ [C] ++ P ++ N ++ L).filter (fun c => c.tag == "_UID".toList) = U := by
    repeat rw [List.filter_append]
    rw [filter_tag_eq_self hUtags, filter_tag_eq_nil hCne_uid, filter_tag_eq_nil hPne_uid,
      filter_tag_eq_nil hNne_uid, filter_tag_eq_nil hLne_uid]
    simp
  have hfilC : (U ++ [C] ++ P ++ N ++ L).filter (fun c => c.tag == "CHAN".toList) = [C] := by
    repeat rw [List.filter_append]
    have hUne_chan : ∀ x ∈ U, x.tag ≠ "CHAN".toList := by
      intro x hx
      rw [hUtags x hx]
      decide
    have hCeq : ∀ x ∈ [C], x.tag = "CHAN".toList := by
      intro x hx
      simp only [List.mem_singleton] at hx
      rw [hx, hCtag]
    have hPne : ∀ x ∈ P, x.tag ≠ "CHAN".toList := fun x hx => (hPtags x hx).2.2.1
    have hNne : ∀ x ∈ N, x.tag ≠ "CHAN".toList := by
      intro x hx
      rw [hNtags x hx]
      decide
    have hLne : ∀ x ∈ L, x.tag ≠ "CHAN".toList := by
      intro x hx
      rw [hLtags x hx]
      decide
    rw [filter_tag_eq_nil hUne_chan, filter_tag_eq_self hCeq, filter_tag_eq_nil hPne,
      filter_tag_eq_nil hNne, filter_tag_eq_nil hLne]
    simp
  have hany : (U ++ [C] ++ P ++ N ++ L).any (fun c => c.tag == "_UID".toList) = true := by
    obtain ⟨x, hx⟩ := List.exists_mem_of_ne_nil U hUne
    rw [List.any_eq_true]
    refine ⟨x, ?_, ?_⟩
    · simp only [List.mem_append]
      tauto
    · simp [hUtags x hx]
  have hUid2 : claimUidPart u2 res = U := by
    unfold claimUidPart
    rw [hsplit, hany]
    simp only [if_true, ite_true]
    exact hfilU
  have hChan2 : claimChanPart d2 t2 res = C := by
    unfold claimChanPart
    rw [hsplit, hfilC]
    rfl
  have hPres2 : claimPreservedPart res = P := by
    unfold claimPreservedPart
    rw [hsplit]
    repeat rw [List.filter_append]
    have e1 : U.filter (fun c => !(c.tag == "NAME".toList) && !(c.tag == "_LOC".toList)
        && !(c.tag == "CHAN".toList) && !(c.tag == "_UID".toList)) = [] := by
      rw [List.filter_eq_nil_iff]
      intro x hx
      rw [fourTag_false_of_uid (hUtags x hx)]
      simp
    have e2 : List.filter (fun c => !(c.tag == "NAME".toList) && !(c.tag == "_LOC".toList)
        && !(c.tag == "CHAN".toList) && !(c.tag == "_UID".toList)) [C] = [] := by
      rw [List.filter_eq_nil_iff]
      intro x hx
      simp only [List.mem_singleton] at hx
      rw [hx, fourTag_false_of_chan hCtag]
      simp
    have e3 : P.filter (fun c => !(c.tag == "NAME".toList) && !(c.tag == "_LOC".toList)
        && !(c.tag == "CHAN".toList) && !(c.tag == "_UID".toList)) = P := by
      rw [List.filter_eq_self]
      intro x hx
      obtain ⟨p1, p2, p3, p4⟩ := hPtags x hx
      rw [fourTag_true_of_ne p1 p2 p3 p4]
    have e4 : N.filter (fun c => !(c.tag == "NAME".toList) && !(c.tag == "_LOC".toList)
        && !(c.tag == "CHAN".toList) && !(c.tag == "_UID".toList)) = [] := by
      rw [List.filter_eq_nil_iff]
      intro x hx
      rw [fourTag_false_of_name (hNtags x hx)]
      simp
    have e5 : L.filter (fun c => !(c.tag == "NAME".toList) && !(c.tag == "_LOC".toList)
        && !(c.tag == "CHAN".toList) && !(c.tag == "_UID".toList)) = [] := by
      rw [List.filter_eq_nil_iff]
      intro x hx
      rw [fourTag_false_of_loc (hLtags x hx)]
      simp
    rw [e1, e2, e3, e4, e5]
    simp
  have hNames2 : (match item.names with
      | some ns => ns.map (mkNameNode (abbrsOf res))
      | none => []) = N := by
    rw [hN]
    cases hn : item.names with
    | none => rfl
    | some ns =>
      apply List.map_congr_left
      intro n hmem
      apply mkNameNode_congr
      rw [abbrsOf_lookup, abbrsOf_lookup, hsplit]
      rw [abbrCands_append, abbrCands_append, abbrCands_append, abbrCands_append]
      have cU : abbrCands n.name U = [] := abbrCands_eq_nil (by
        intro x hx
        rw [hUtags x hx]
        decide)
      have cC : abbrCands n.name [C] = [] := abbrCands_eq_nil (by
        intro x hx
        simp only [List.mem_singleton] at hx
        rw [hx, hCtag]
        decide)
      have cP : abbrCands n.name P = [] := abbrCands_eq_nil (fun x hx => (hPtags x hx).1)
      have cL : abbrCands n.name L = [] := abbrCands_eq_nil (by
        intro x hx
        rw [hLtags x hx]
        decide)
      rw [cU, cC, cP, cL]
      simp only [List.nil_append, List.append_nil]
      rw [hN, hn]
      rw [abbrCands_nameNodes]
      rw [← abbrsOf_lookup rec n.name]
      cases ho : abbrLookup n.name (abbrsOf rec) with
      | some a =>
        dsimp only
        apply getLast?_of_all_eq
        · intro hnil
          have hmem' : a ∈ ns.flatMap (fun n' => if n'.name = n.name then [a] else []) := by
            rw [List.mem_flatMap]
            exact ⟨n, hmem, by rw [if_pos rfl]; simp⟩
          rw [hnil] at hmem'
          exact absurd hmem' (List.not_mem_nil a)
        · intro x hx
          rw [List.mem_flatMap] at hx
          obtain ⟨n', _, hx'⟩ := hx
          by_cases hcond : n'.name = n.name
          · rw [if_pos hcond] at hx'
            simpa using hx'
          · rw [if_neg hcond] at hx'
            exact absurd hx' (List.not_mem_nil x)
      | none =>
        dsimp only
        have hflat : ns.flatMap (fun n' => if n'.name = n.name then ([] : List Str) else []) = [] := by
          rw [List.flatMap_eq_nil_iff]
          intro n' _
          by_cases hcond : n'.name = n.name
          · rw [if_pos hcond]
          · rw [if_neg hcond]
        rw [hflat]
        rfl
  rw [hUid2, hChan2, hPres2, hNames2, ← hL]

theorem update_record_tag (u d t : Str) (r : Node) (item : YamlItem) :
    (update_record u d t r item).tag = r.tag := rfl

theorem update_record_level (u d t : Str) (r : Node) (item : YamlItem) :
    (update_record u d t r item).level = r.level := rfl

theorem update_record_xref (u d t : Str) (r : Node) (item : YamlItem) :
    (update_record u d t r item).xref = r.xref := rfl

theorem create_new_record_tag (rid u d t : Str) (item : YamlItem) :
    (create_new_record rid u d t item).tag = "_LOC".toList := rfl

theorem countTag_append (T : Str) (l1 l2 : List Node) :
    countTag T (l1 ++ l2) = countTag T l1 + countTag T l2 := by
  unfold countTag
  rw [List.filter_append, List.length_append]

theorem countTag_singleton_ne (T : Str) (x : Node) (h : x.tag ≠ T) : countTag T [x] = 0 := by
  unfold countTag
  rw [List.filter_cons]
  rw [beq_eq_false_iff_ne.mpr h]
  rfl

theorem countTag_set (T : Str) (l : List Node) :
    ∀ (i : Nat) (x : Node), x.tag = (l.getD i default).tag → countTag T (l.set i x) = countTag T l := by
  induction l with
  | nil => intro i x _; rfl
  | cons a t ih =>
    intro i x h
    cases i with
    | zero =>
      unfold countTag
      rw [List.set_cons_zero, List.filter_cons, List.filter_cons]
      have : (x.tag == T) = (a.tag == T) := by
        rw [h]
        rfl
      rw [this]
      cases hb : (a.tag == T) <;> simp
    | succ i =>
      rw [List.set_cons_succ]
      unfold countTag
      rw [List.filter_cons, List.filter_cons]
      have ht := ih i x h
      unfold countTag at ht
      cases hb : (a.tag == T) <;> simp [ht]

theorem loop_countTag (fresh : Nat → Str × Str × Str) (yaml : List (Str × YamlItem)) :
    ∀ recs idMap k,
      countTag "TRLR".toList ((yaml.foldl (applyYaml fresh) (recs, idMap, k)).1)
        = countTag "TRLR".toList recs := by
  induction yaml with
  | nil => intro recs idMap k; rfl
  | cons e t ih =>
    intro recs idMap k
    rw [List.foldl_cons]
    cases e with
    | mk yid item =>
      cases hl : mapLookup yid idMap with
      | some idx =>
        have hstep : applyYaml fresh (recs, idMap, k) (yid, item)
            = (recs.set idx (update_record (fresh k).1 (fresh k).2.1 (fresh k).2.2
                (recs.getD idx default) item), idMap, k + 1) := by
          unfold applyYaml
          dsimp only
          rw [hl]
        rw [hstep, ih, countTag_set]
        exact update_record_tag _ _ _ _ _
      | none =>
        have hstep : applyYaml fresh (recs, idMap, k) (yid, item)
            = (recs ++ [create_new_record yid (fresh k).1 (fresh k).2.1 (fresh k).2.2 item],
                mapInsert yid recs.length idMap, k + 1) := by
          unfold applyYaml
          dsimp only
          rw [hl]
        rw [hstep, ih, countTag_append, countTag_singleton_ne]
        · simp
        · rw [create_new_record_tag]
          decide

theorem countTag_singleton_eq (T : Str) (x : Node) (h : x.tag = T) : countTag T [x] = 1 := by
  unfold countTag
  rw [List.filter_cons]
  have : (x.tag == T) = true := by rw [h]; exact beq_self_eq_true T
  rw [this]
  rfl

theorem moveTrailer_last (records : List Node) :
    ∃ x, (moveTrailer records).getLast? = some x ∧ x.tag = "TRLR".toList := by
  unfold moveTrailer
  cases hf : records.findIdx? (fun r => r.tag == "TRLR".toList) with
  | none => exact ⟨_, List.getLast?_concat _, rfl⟩
  | some i =>
    refine ⟨records.getD i default, List.getLast?_concat _, ?_⟩
    obtain ⟨hlen, hp, -⟩ := List.findIdx?_eq_some_iff_getElem.mp hf
    have hgd : records.getD i default = records[i] := by
      rw [List.getD_eq_getElem?_getD, List.getElem?_eq_getElem hlen]
      rfl
    rw [hgd]
    exact eq_of_beq hp

theorem moveTrailer_count (records : List Node)
    (h : countTag "TRLR".toList records ≤ 1) :
    countTag "TRLR".toList (moveTrailer records) = 1 := by
  unfold moveTrailer
  cases hf : records.findIdx? (fun r => r.tag == "TRLR".toList) with
  | none =>
    have hall := List.findIdx?_eq_none_iff.mp hf
    have hz : countTag "TRLR".toList records = 0 := by
      unfold countTag
      rw [List.filter_eq_nil_iff.mpr (fun x hx => by rw [hall x hx]; simp)]
      rfl
    rw [countTag_append, hz, countTag_singleton_eq]
    rfl
  | some i =>
    obtain ⟨hlen, hp, -⟩ := List.findIdx?_eq_some_iff_getElem.mp hf
    have hgd : records.getD i default = records[i] := by
      rw [List.getD_eq_getElem?_getD, List.getElem?_eq_getElem hlen]
      rfl
    have hsingle : countTag "TRLR".toList [records.getD i default] = 1 := by
      apply countTag_singleton_eq
      rw [hgd]
      exact eq_of_beq hp
    have hcnt : countTag "TRLR".toList records
        = countTag "TRLR".toList (records.take i)
          + (1 + countTag "TRLR".toList (records.drop (i + 1))) := by
      conv_lhs => rw [← List.take_append_drop i records]
      rw [countTag_append, List.drop_eq_getElem_cons hlen]
      congr 1
      rw [show (records[i] :: records.drop (i + 1))
          = [records[i]] ++ records.drop (i + 1) from rfl, countTag_append]
      rw [countTag_singleton_eq "TRLR".toList records[i] (eq_of_beq hp)]
    have herase : countTag "TRLR".toList (records.eraseIdx i)
        = countTag "TRLR".toList (records.take i)
          + countTag "TRLR".toList (records.drop (i + 1)) := by
      rw [List.eraseIdx_eq_take_drop_succ, countTag_append]
    rw [countTag_append, herase, hsingle]
    rw [hcnt] at h
    omega

theorem mainRecords_count (records0 : List Node) (idMap0 : List (Str × Nat))
    (yaml : List (Str × YamlItem)) (fresh : Nat → Str × Str × Str)
    (h : countTag "TRLR".toList records0 ≤ 1) :
    countTag "TRLR".toList (mainRecords records0 idMap0 yaml fresh) = 1 := by
  unfold mainRecords
  apply moveTrailer_count
  rw [loop_countTag]
  exact h

theorem mainRecords_last (records0 : List Node) (idMap0 : List (Str × Nat))
    (yaml : List (Str × YamlItem)) (fresh : Nat → Str × Str × Str) :
    ∃ x, (mainRecords records0 idMap0 yaml fresh).getLast? = some x
      ∧ x.tag = "TRLR".toList := moveTrailer_last _

theorem processLine_of_garbage (st : PState) (line : Str) (t : Tok)
    (ht : tokenizeLine line = .ok (some t)) (hg : isGarbage t = true) :
    processLine st line = .ok st := by
  unfold processLine
  rw [ht]
  dsimp only
  rw [hg]
  simp

theorem parse_skip_line (pre post : List Str) (line : Str)
    (h : ∀ st : PState, processLine st line = .ok st) :
    parse_gedcom_lines (pre ++ line :: post) = parse_gedcom_lines (pre ++ post) := by
  unfold parse_gedcom_lines
  rw [List.foldlM_append, List.foldlM_append]
  cases hpre : List.foldlM processLine ⟨[], [], []⟩ pre with
  | error e => rfl
  | ok st =>
    have e1 : (do
        let init ← Except.ok st
        List.foldlM processLine init (line :: post)) = List.foldlM processLine st (line :: post) := rfl
    have e2 : (do
        let init ← Except.ok st
        List.foldlM processLine init post) = List.foldlM processLine st post := rfl
    rw [e1, e2]
    have e3 : List.foldlM processLine st (line :: post) = List.foldlM processLine st post := by
      rw [List.foldlM_cons, h st]
      rfl
    rw [e3]

theorem popCarry_all (v : Int) (n : Node) (rest : List (Int × Node))
    (h : ∀ e ∈ rest, v ≤ e.1) : popCarry v n rest = ([], [collapseCarry n rest]) := by
  induction rest generalizing n with
  | nil => rfl
  | cons e rest' ih =>
    cases e with
    | mk l p =>
      unfold popCarry collapseCarry
      rw [if_pos (h (l, p) (by simp))]
      exact ih _ (fun e he => h e (by simp [he]))

theorem popGE_all (v : Int) (s : List (Int × Node)) (h : ∀ e ∈ s, v ≤ e.1) :
    popGE v s = ([], collapseStack s) := by
  cases s with
  | nil => rfl
  | cons e rest =>
    cases e with
    | mk l n =>
      unfold popGE collapseStack
      dsimp only
      rw [if_pos (h (l, n) (by simp))]
      exact popCarry_all v n rest (fun e he => h e (by simp [he]))

theorem processLine_orphan (st : PState) (line : Str) (t : Tok)
    (ht : tokenizeLine line = .ok (some t)) (hpos : 0 < t.level)
    (hstk : ∀ e ∈ st.stack, t.level ≤ e.1) :
    processLine st line = .ok ⟨st.records ++ collapseStack st.stack, st.idMap, []⟩ := by
  have hg : isGarbage t = false := by
    unfold isGarbage
    have : (t.level == 0) = false := by
      rw [beq_eq_false_iff_ne]
      omega
    rw [this]
    rfl
  unfold processLine
  rw [ht]
  dsimp only
  rw [hg]
  simp only [Bool.false_eq_true, if_false, ite_false]
  rw [if_neg (by omega : ¬ t.level = 0)]
  rw [popGE_all t.level st.stack hstk]

theorem splitCharAux_ne_nil (sep : Char) (m : Nat) (acc s : Str) :
    splitCharAux sep m acc s ≠ [] := by
  induction s generalizing m acc with
  | nil => cases m <;> simp [splitCharAux]
  | cons c rest ih =>
    cases m with
    | zero => simp [splitCharAux]
    | succ m' =>
      unfold splitCharAux
      by_cases hc : c = sep
      · rw [if_pos hc]
        simp
      · rw [if_neg hc]
        exact ih _ _

theorem processLine_ok_of_tok (st : PState) (line : Str) (o : Option Tok)
    (ht : tokenizeLine line = .ok o) : ∃ st', processLine st line = .ok st' := by
  unfold processLine
  rw [ht]
  cases o with
  | none => exact ⟨st, rfl⟩
  | some t =>
    dsimp only
    cases hg : isGarbage t
    · simp only [Bool.false_eq_true, if_false, ite_false]
      by_cases hl : t.level = 0
      · rw [if_pos hl]
        exact ⟨_, rfl⟩
      · rw [if_neg hl]
        cases hp : popGE t.level st.stack with
        | mk stk flushed =>
          cases stk with
          | nil => exact ⟨_, rfl⟩
          | cons a b => exact ⟨_, rfl⟩
    · simp only [if_true, ite_true]
      exact ⟨st, rfl⟩

theorem tokenizeLine_ok_of_no_raise (l : Str) (h : lineRaises l = false) :
    ∃ o, tokenizeLine l = .ok o := by
  unfold tokenizeLine
  unfold lineRaises at h
  dsimp only
  cases hstrip : pyStrip l with
  | nil => exact ⟨none, rfl⟩
  | cons c rest =>
    rw [hstrip] at h
    simp only [List.isEmpty_cons, Bool.false_eq_true, if_false, ite_false] at h ⊢
    cases hsplit : splitChar ' ' 2 (c :: rest) with
    | nil => exact absurd hsplit (splitCharAux_ne_nil ' ' 2 [] (c :: rest))
    | cons p0 ps =>
      rw [hsplit] at h
      dsimp only
      cases hint : pyInt p0 with
      | none => exact ⟨none, rfl⟩
      | some lvl =>
        cases ps with
        | nil =>
          dsimp only at h
          rw [hint] at h
          simp at h
        | cons p1 ps' =>
          dsimp only
          by_cases hx : (pyStarts p1 ['@'] && pyEnds p1 ['@']) = true
          · rw [if_pos hx]
            cases ps' with
            | nil => exact ⟨_, rfl⟩
            | cons p2 tl =>
              dsimp only
              cases hsplit2 : splitChar ' ' 1 p2 with
              | nil => exact absurd hsplit2 (splitCharAux_ne_nil ' ' 1 [] p2)
              | cons tg r3 => exact ⟨_, rfl⟩
          · rw [if_neg hx]
            exact ⟨_, rfl⟩

theorem parse_total_of_no_raise (lines : List Str)
    (h : ∀ l ∈ lines, lineRaises l = false) :
    ∃ out, parse_gedcom_lines lines = .ok out := by
  have main : ∀ (ls : List Str), (∀ l ∈ ls, lineRaises l = false) → ∀ st : PState,
      ∃ st', List.foldlM processLine st ls = .ok st' := by
    intro ls
    induction ls with
    | nil => intro _ st; exact ⟨st, rfl⟩
    | cons l t ih =>
      intro hh st
      obtain ⟨o, ho⟩ := tokenizeLine_ok_of_no_raise l (hh l (by simp))
      obtain ⟨st1, hst1⟩ := processLine_ok_of_tok st l o ho
      obtain ⟨st2, hst2⟩ := ih (fun x hx => hh x (by simp [hx])) st1
      refine ⟨st2, ?_⟩
      rw [List.foldlM_cons, hst1]
      exact hst2
  obtain ⟨st', hst'⟩ := main lines h ⟨[], [], []⟩
  refine ⟨(st'.records ++ collapseStack st'.stack, st'.idMap), ?_⟩
  unfold parse_gedcom_lines
  rw [hst']

theorem intercalate_cons_of_ne_nil {α : Type} (s a : List α) (l : List (List α)) (h : l ≠ []) :
    List.intercalate s (a :: l) = a ++ s ++ List.intercalate s l := by
  cases l with
  | nil => exact absurd rfl h
  | cons b t =>
    unfold List.intercalate
    rw [List.intersperse_cons_cons]
    simp [List.append_assoc]

theorem splitCharAux_intercalate (sep : Char) :
    ∀ (s : Str) (m : Nat) (acc : Str),
      List.intercalate [sep] (splitCharAux sep m acc s) = acc.reverse ++ s := by
  intro s
  induction s with
  | nil =>
    intro m acc
    cases m <;> simp [splitCharAux, List.intercalate]
  | cons c rest ih =>
    intro m acc
    cases m with
    | zero => simp [splitCharAux, List.intercalate]
    | succ m' =>
      unfold splitCharAux
      by_cases hc : c = sep
      · rw [if_pos hc]
        rw [intercalate_cons_of_ne_nil _ _ _ (splitCharAux_ne_nil sep m' [] rest)]
        rw [ih m' []]
        simp [hc]
      · rw [if_neg hc]
        rw [ih (m' + 1) (c :: acc)]
        simp

theorem splitChar_intercalate (sep : Char) (m : Nat) (s : Str) :
    List.intercalate [sep] (splitChar sep m s) = s := by
  unfold splitChar
  rw [splitCharAux_intercalate]
  rfl

theorem splitCharAux_dropLast_sep_free (sep : Char) :
    ∀ (s : Str) (m : Nat) (acc : Str), sep ∉ acc →
      ∀ p ∈ (splitCharAux sep m acc s).dropLast, sep ∉ p := by
  intro s
  induction s with
  | nil => intro m acc _ p hp; cases m <;> simp [splitCharAux] at hp
  | cons c rest ih =>
    intro m acc hacc p hp
    cases m with
    | zero => simp [splitCharAux] at hp
    | succ m' =>
      unfold splitCharAux at hp
      by_cases hc : c = sep
      · rw [if_pos hc] at hp
        rw [List.dropLast_cons_of_ne_nil (splitCharAux_ne_nil sep m' [] rest)] at hp
        rcases List.mem_cons.mp hp with h1 | h2
        · rw [h1]
          intro hmem
          exact hacc (by simpa using hmem)
        · exact ih m' [] (by simp) p h2
      · rw [if_neg hc] at hp
        refine ih (m' + 1) (c :: acc) ?_ p hp
        intro hmem
        rcases List.mem_cons.mp hmem with h1 | h2
        · exact hc h1.symm
        · exact hacc h2

theorem splitCharAux_all_sep_free_of_short (sep : Char) :
    ∀ (s : Str) (m : Nat) (acc : Str), sep ∉ acc →
      (splitCharAux sep m acc s).length ≤ m →
      ∀ p ∈ splitCharAux sep m acc s, sep ∉ p := by
  intro s
  induction s with
  | nil =>
    intro m acc hacc _ p hp
    cases m <;> simp [splitCharAux] at hp <;>
      · rw [hp]
        intro hmem
        exact hacc (by simpa using hmem)
  | cons c rest ih =>
    intro m acc hacc hlen p hp
    cases m with
    | zero => simp [splitCharAux] at hlen
    | succ m' =>
      unfold splitCharAux at hp hlen
      by_cases hc : c = sep
      · rw [if_pos hc] at hp hlen
        rcases List.mem_cons.mp hp with h1 | h2
        · rw [h1]
          intro hmem
          exact hacc (by simpa using hmem)
        · refine ih m' [] (by simp) ?_ p h2
          simp only [List.length_cons] at hlen
          omega
      · rw [if_neg hc] at hp hlen
        refine ih (m' + 1) (c :: acc) ?_ hlen p hp
        intro hmem
        rcases List.mem_cons.mp hmem with h1 | h2
        · exact hc h1.symm
        · exact hacc h2

theorem splitChar_dropLast_sep_free (sep : Char) (m : Nat) (s : Str) :
    ∀ p ∈ (splitChar sep m s).dropLast, sep ∉ p :=
  splitCharAux_dropLast_sep_free sep s m [] (by simp)

theorem splitChar_all_sep_free_of_short (sep : Char) (m : Nat) (s : Str)
    (h : (splitChar sep m s).length ≤ m) : ∀ p ∈ splitChar sep m s, sep ∉ p :=
  splitCharAux_all_sep_free_of_short sep s m [] (by simp) h

theorem dropWhile_head?_not {p : Char → Bool} {l : Str} {c : Char}
    (h : (l.dropWhile p).head? = some c) : p c = false := by
  induction l with
  | nil => simp [List.dropWhile] at h
  | cons a t ih =>
    rw [List.dropWhile_cons] at h
    by_cases ha : p a = true
    · rw [if_pos ha] at h
      exact ih h
    · rw [if_neg ha] at h
      simp at h
      rw [← h]
      revert ha
      cases p a <;> simp

theorem suffix_getLast? {α : Type} {l1 l2 : List α} (h : l1 <:+ l2) (hne : l1 ≠ []) :
    l1.getLast? = l2.getLast? := by
  obtain ⟨pre, hpre⟩ := h
  rw [← hpre, List.getLast?_append_of_ne_nil _ hne]

theorem pyStrip_head?_not_white {l : Str} {c : Char} (h : (pyStrip l).head? = some c) :
    isPyWhite c = false := by
  unfold pyStrip at h
  rw [List.head?_reverse] at h
  set z := (l.dropWhile isPyWhite).reverse.dropWhile isPyWhite with hz
  have hzne : z ≠ [] := by
    intro hnil
    rw [hnil] at h
    simp at h
  have : z.getLast? = ((l.dropWhile isPyWhite).reverse).getLast? :=
    suffix_getLast? (List.dropWhile_suffix _) hzne
  rw [this, List.getLast?_reverse] at h
  exact dropWhile_head?_not h

theorem pyStrip_getLast?_not_white {l : Str} {c : Char} (h : (pyStrip l).getLast? = some c) :
    isPyWhite c = false := by
  unfold pyStrip at h
  rw [List.getLast?_reverse] at h
  exact dropWhile_head?_not h

theorem mem_pyStrip {l : Str} {c : Char} (h : c ∈ pyStrip l) : c ∈ l := by
  unfold pyStrip at h
  rw [List.mem_reverse] at h
  have h2 := (List.dropWhile_sublist isPyWhite).mem h
  rw [List.mem_reverse] at h2
  exact (List.dropWhile_sublist isPyWhite).mem h2

theorem pyStrip_eq_self_of_ends {s : Str}
    (h1 : ∀ c, s.head? = some c → isPyWhite c = false)
    (h2 : ∀ c, s.getLast? = some c → isPyWhite c = false) : pyStrip s = s := by
  unfold pyStrip
  have e1 : s.dropWhile isPyWhite = s := by
    cases s with
    | nil => rfl
    | cons a t =>
      rw [List.dropWhile_cons, if_neg]
      rw [h1 a rfl]
      simp
  rw [e1]
  have e2 : s.reverse.dropWhile isPyWhite = s.reverse := by
    cases hs : s.reverse with
    | nil => rfl
    | cons a t =>
      have ha : isPyWhite a = false := by
        apply h2
        rw [← List.head?_reverse, hs]
        rfl
      rw [List.dropWhile_cons, ha]
      simp
  rw [e2, List.reverse_reverse]

theorem dropWhile_append_of_ne_nil {p : Char → Bool} {l l' : Str} (h : l.dropWhile p ≠ []) :
    (l ++ l').dropWhile p = l.dropWhile p ++ l' := by
  induction l with
  | nil => exact absurd rfl h
  | cons a t ih =>
    by_cases ha : p a = true
    · rw [List.cons_append, List.dropWhile_cons, List.dropWhile_cons, if_pos ha, if_pos ha]
      apply ih
      rw [List.dropWhile_cons, if_pos ha] at h
      exact h
    · rw [List.cons_append, List.dropWhile_cons, List.dropWhile_cons, if_neg ha, if_neg ha]
      rfl

theorem pyStrip_snoc_white {s : Str} {c : Char} (h : isPyWhite c = true) :
    pyStrip (s ++ [c]) = pyStrip s := by
  unfold pyStrip
  by_cases hd : s.dropWhile isPyWhite = []
  · have hall : (s ++ [c]).dropWhile isPyWhite = [] := by
      have hs : ∀ x ∈ s, isPyWhite x = true := by
        intro x hx
        by_contra hnx
        have : s.dropWhile isPyWhite ≠ [] := by
          rw [ne_eq, List.dropWhile_eq_nil_iff]
          push_neg
          exact ⟨x, hx, by revert hnx; cases isPyWhite x <;> simp⟩
        exact this hd
      rw [List.dropWhile_eq_nil_iff]
      intro x hx
      rcases List.mem_append.mp hx with h1 | h2
      · exact hs x h1
      · simp at h2
        rw [h2]
        exact h
    rw [hall, hd]
  · rw [dropWhile_append_of_ne_nil hd]
    rw [List.reverse_append]
    simp only [List.reverse_cons, List.reverse_nil, List.nil_append, List.singleton_append]
    rw [List.dropWhile_cons, h]
    simp

theorem splitCharAux_length_le (sep : Char) :
    ∀ (s : Str) (m : Nat) (acc : Str), (splitCharAux sep m acc s).length ≤ m + 1 := by
  intro s
  induction s with
  | nil => intro m acc; cases m <;> simp [splitCharAux]
  | cons c rest ih =>
    intro m acc
    cases m with
    | zero => simp [splitCharAux]
    | succ m' =>
      unfold splitCharAux
      by_cases hc : c = sep
      · rw [if_pos hc]
        have := ih m' []
        simp only [List.length_cons]
        omega
      · rw [if_neg hc]
        exact ih (m' + 1) (c :: acc)

theorem splitChar_length_le (sep : Char) (m : Nat) (s : Str) :
    (splitChar sep m s).length ≤ m + 1 :=
  splitCharAux_length_le sep s m []

theorem intercalate_pair {α : Type} (sep : α) (a b : List α) :
    List.intercalate [sep] [a, b] = a ++ sep :: b := by
  simp [List.intercalate, List.intersperse]

theorem intercalate_triple {α : Type} (sep : α) (a b c : List α) :
    List.intercalate [sep] [a, b, c] = a ++ sep :: (b ++ sep :: c) := by
  simp [List.intercalate, List.intersperse]

theorem contains_eq_false_of_not_mem {l : Str} {a : Char} (h : a ∉ l) : l.contains a = false := by
  simpa using h

theorem cleanStr_of_not_mem {s : Str} (h1 : '\n' ∉ s) (h2 : '\x0d' ∉ s) : cleanStr s = true := by
  unfold cleanStr
  rw [contains_eq_false_of_not_mem h1, contains_eq_false_of_not_mem h2]
  rfl

theorem lastNotWhite_of {v : Str} (h : ∀ d, v.getLast? = some d → isPyWhite d = false) :
    lastNotWhite v = true := by
  unfold lastNotWhite
  cases hv : v.getLast? with
  | none => rfl
  | some d =>
    dsimp only
    rw [h d hv]
    rfl

theorem getLast?_cons_of_ne_nil {α : Type} (s : α) (y : List α) (h : y ≠ []) :
    (s :: y).getLast? = y.getLast? := by
  rw [getLast?_cons_eq]
  cases hy : y.getLast? with
  | none => exact absurd (List.getLast?_eq_none_iff.mp hy) h
  | some v => rfl

theorem goodTokB_intro (t : Tok)
    (h1 : t.tag.contains ' ' = false)
    (h2 : cleanStr t.tag = true) (h3 : cleanStr t.value = true)
    (h4 : lastNotWhite t.value = true)
    (h5 : t.value.isEmpty = false ∨ t.tag.isEmpty = true ∨ lastNotWhite t.tag = true)
    (h6 : match t.xref with
          | some x => pyStarts x ['@'] = true ∧ pyEnds x ['@'] = true
              ∧ x.contains ' ' = false ∧ cleanStr x = true
          | none => (pyStarts t.tag ['@'] && pyEnds t.tag ['@']) = false
              ∧ (t.tag.isEmpty = false ∨ t.value.isEmpty = false)) :
    goodTokB t = true := by
  have h5' : (!t.value.isEmpty || t.tag.isEmpty || lastNotWhite t.tag) = true := by
    rcases h5 with h | h | h <;> rw [h] <;> simp
  unfold goodTokB
  rw [h1, h2, h3, h4, h5']
  cases hx : t.xref with
  | some x =>
    rw [hx] at h6
    obtain ⟨a, b, c, d⟩ := h6
    dsimp only
    rw [a, b, c, d]
    rfl
  | none =>
    rw [hx] at h6
    obtain ⟨a, b⟩ := h6
    have b' : (!t.tag.isEmpty || !t.value.isEmpty) = true := by
      rcases b with h | h <;> rw [h] <;> simp
    dsimp only
    rw [a, b']
    rfl

theorem white_space_char : isPyWhite ' ' = true := rfl

theorem tokenize_good (line : Str) (t : Tok)
    (hn : '\n' ∉ line) (hr : '\x0d' ∉ line)
    (ht : tokenizeLine line = .ok (some t)) : goodTokB t = true := by
  unfold tokenizeLine at ht
  dsimp only at ht
  cases hstrip : pyStrip line with
  | nil =>
    rw [hstrip] at ht
    simp at ht
  | cons c0 rest0 =>
    rw [hstrip] at ht
    simp only [List.isEmpty_cons, Bool.false_eq_true, if_false, ite_false] at ht
    have hmem : ∀ x ∈ c0 :: rest0, x ∈ line := fun x hx => mem_pyStrip (hstrip ▸ hx)
    have hlastw : ∀ d, (c0 :: rest0).getLast? = some d → isPyWhite d = false :=
      fun d hd => pyStrip_getLast?_not_white (hstrip ▸ hd)
    cases hsplit : splitChar ' ' 2 (c0 :: rest0) with
    | nil => exact absurd hsplit (splitCharAux_ne_nil _ _ _ _)
    | cons p0 ps =>
      rw [hsplit] at ht
      dsimp only at ht
      have hjoin : List.intercalate [' '] (p0 :: ps) = c0 :: rest0 := by
        rw [← hsplit]
        exact splitChar_intercalate _ _ _
      have hlen : (p0 :: ps).length ≤ 3 := by
        rw [← hsplit]
        exact splitChar_length_le ' ' 2 _
      cases hint : pyInt p0 with
      | none => rw [hint] at ht; simp at ht
      | some lvl =>
        rw [hint] at ht
        dsimp only at ht
        cases ps with
        | nil => simp at ht
        | cons p1 ps2 =>
          dsimp only at ht
          cases ps2 with
          | nil =>
            -- two segments: stripped = p0 ++ ' ' :: p1
            have hj2 : c0 :: rest0 = p0 ++ ' ' :: p1 := by
              rw [← hjoin, intercalate_pair]
            have hfree := splitChar_all_sep_free_of_short ' ' 2 (c0 :: rest0)
              (by rw [hsplit]; simp)
            have hp1free : ' ' ∉ p1 := hfree p1 (by rw [hsplit]; simp)
            have hp1ne : p1 ≠ [] := by
              intro hnil
              have : (c0 :: rest0).getLast? = some ' ' := by
                rw [hj2, hnil, List.getLast?_append_cons]
                rfl
              have := hlastw ' ' this
              rw [white_space_char] at this
              exact absurd this (by simp)
            have hp1last : ∀ d, p1.getLast? = some d → isPyWhite d = false := by
              intro d hd
              apply hlastw
              rw [hj2, List.getLast?_append_cons, getLast?_cons_of_ne_nil _ _ hp1ne]
              exact hd
            have hp1mem : ∀ x ∈ p1, x ∈ line := by
              intro x hx
              apply hmem
              rw [hj2]
              simp [hx]
            by_cases hx : (pyStarts p1 ['@'] && pyEnds p1 ['@']) = true
            · rw [if_pos hx] at ht
              simp only [Except.ok.injEq, Option.some.injEq] at ht
              subst ht
              apply goodTokB_intro <;> dsimp only [List.headD]
              · rfl
              · rfl
              · rfl
              · rfl
              · right; left; rfl
              · refine ⟨?_, ?_, ?_, ?_⟩
                · exact (Bool.and_eq_true _ _).mp hx |>.1
                · exact (Bool.and_eq_true _ _).mp hx |>.2
                · exact contains_eq_false_of_not_mem hp1free
                · exact cleanStr_of_not_mem
                    (fun hm => hn (hp1mem _ hm)) (fun hm => hr (hp1mem _ hm))
            · rw [if_neg hx] at ht
              simp only [Except.ok.injEq, Option.some.injEq] at ht
              subst ht
              apply goodTokB_intro <;> dsimp only [List.headD]
              · exact contains_eq_false_of_not_mem hp1free
              · exact cleanStr_of_not_mem
                  (fun hm => hn (hp1mem _ hm)) (fun hm => hr (hp1mem _ hm))
              · rfl
              · rfl
              · right
                right
                exact lastNotWhite_of hp1last
              · constructor
                · revert hx
                  cases pyStarts p1 ['@'] && pyEnds p1 ['@'] <;> simp
                · left
                  cases p1 with
                  | nil => exact absurd rfl hp1ne
                  | cons a b => rfl
          | cons p2 ps3 =>
            have hps3 : ps3 = [] := by
              simp only [List.length_cons] at hlen
              cases ps3 with
              | nil => rfl
              | cons a b => simp at hlen
            subst hps3
            have hj3 : c0 :: rest0 = p0 ++ ' ' :: (p1 ++ ' ' :: p2) := by
              rw [← hjoin, intercalate_triple]
            have hp1free : ' ' ∉ p1 := by
              apply splitChar_dropLast_sep_free ' ' 2 (c0 :: rest0)
              rw [hsplit]
              simp
            have hp2ne : p2 ≠ [] := by
              intro hnil
              have : (c0 :: rest0).getLast? = some ' ' := by
                rw [hj3, hnil, List.getLast?_append_cons, getLast?_cons_of_ne_nil _ _ (by simp),
                  List.getLast?_append_cons]
                rfl
              have := hlastw ' ' this
              rw [white_space_char] at this
              exact absurd this (by simp)
            have hp2last : ∀ d, p2.getLast? = some d → isPyWhite d = false := by
              intro d hd
              apply hlastw
              rw [hj3, List.getLast?_append_cons,
                getLast?_cons_of_ne_nil _ _ (by simp), List.getLast?_append_cons,
                getLast?_cons_of_ne_nil _ _ hp2ne]
              exact hd
            have hp1mem : ∀ x ∈ p1, x ∈ line := by
              intro x hx2
              apply hmem
              rw [hj3]
              simp [hx2]
            have hp2mem : ∀ x ∈ p2, x ∈ line := by
              intro x hx2
              apply hmem
              rw [hj3]
              simp [hx2]
            by_cases hx : (pyStarts p1 ['@'] && pyEnds p1 ['@']) = true
            · rw [if_pos hx] at ht
              dsimp only at ht
              cases hsplit2 : splitChar ' ' 1 p2 with
              | nil => exact absurd hsplit2 (splitCharAux_ne_nil _ _ _ _)
              | cons tg r3 =>
                rw [hsplit2] at ht
                dsimp only at ht
                have hj1 : List.intercalate [' '] (tg :: r3) = p2 := by
                  rw [← hsplit2]
                  exact splitChar_intercalate _ _ _
                have hlen1 : (tg :: r3).length ≤ 2 := by
                  rw [← hsplit2]
                  exact splitChar_length_le ' ' 1 _
                have hxs := (Bool.and_eq_true _ _).mp hx
                have hp1cl : cleanStr p1 = true := cleanStr_of_not_mem
                  (fun hm => hn (hp1mem _ hm)) (fun hm => hr (hp1mem _ hm))
                cases r3 with
                | nil =>
                  have htg : tg = p2 := by
                    rw [← hj1]
                    simp [List.intercalate]
                  simp only [Except.ok.injEq, Option.some.injEq] at ht
                  subst ht
                  have htgfree : ' ' ∉ tg := by
                    apply splitChar_all_sep_free_of_short ' ' 1 p2 (by rw [hsplit2]; simp)
                    rw [hsplit2]
                    simp
                  apply goodTokB_intro <;> dsimp only [List.headD]
                  · exact contains_eq_false_of_not_mem htgfree
                  · exact cleanStr_of_not_mem
                      (fun hm => hn (hp2mem _ (htg ▸ hm)))
                      (fun hm => hr (hp2mem _ (htg ▸ hm)))
                  · rfl
                  · rfl
                  · right
                    right
                    apply lastNotWhite_of
                    intro d hd
                    exact hp2last d (htg ▸ hd)
                  · exact ⟨hxs.1, hxs.2, contains_eq_false_of_not_mem hp1free, hp1cl⟩
                | cons v r4 =>
                  have hr4 : r4 = [] := by
                    cases r4 with
                    | nil => rfl
                    | cons a b => simp at hlen1
                  subst hr4
                  have hjtv : p2 = tg ++ ' ' :: v := by
                    rw [← hj1, intercalate_pair]
                  have htgfree : ' ' ∉ tg := by
                    apply splitChar_dropLast_sep_free ' ' 1 p2
                    rw [hsplit2]
                    simp
                  have hvne : v ≠ [] := by
                    intro hnil
                    have h1 : p2.getLast? = some ' ' := by
                      rw [hjtv, hnil, List.getLast?_append_cons]
                      rfl
                    have := hp2last ' ' h1
                    rw [white_space_char] at this
                    exact absurd this (by simp)
                  have hvlast : ∀ d, v.getLast? = some d → isPyWhite d = false := by
                    intro d hd
                    apply hp2last
                    rw [hjtv, List.getLast?_append_cons, getLast?_cons_of_ne_nil _ _ hvne]
                    exact hd
                  simp only [Except.ok.injEq, Option.some.injEq] at ht
                  subst ht
                  apply goodTokB_intro <;> dsimp only [List.headD]
                  · exact contains_eq_false_of_not_mem htgfree
                  · exact cleanStr_of_not_mem
                      (fun hm => hn (hp2mem _ (by rw [hjtv]; simp [hm])))
                      (fun hm => hr (hp2mem _ (by rw [hjtv]; simp [hm])))
                  · exact cleanStr_of_not_mem
                      (fun hm => hn (hp2mem _ (by rw [hjtv]; simp [hm])))
                      (fun hm => hr (hp2mem _ (by rw [hjtv]; simp [hm])))
                  · exact lastNotWhite_of hvlast
                  · left
                    cases v with
                    | nil => exact absurd rfl hvne
                    | cons a b => rfl
                  · exact ⟨hxs.1, hxs.2, contains_eq_false_of_not_mem hp1free, hp1cl⟩
            · rw [if_neg hx] at ht
              simp only [Except.ok.injEq, Option.some.injEq] at ht
              subst ht
              apply goodTokB_intro <;> dsimp only [List.headD]
              · exact contains_eq_false_of_not_mem hp1free
              · exact cleanStr_of_not_mem
                  (fun hm => hn (hp1mem _ hm)) (fun hm => hr (hp1mem _ hm))
              · exact cleanStr_of_not_mem
                  (fun hm => hn (hp2mem _ hm)) (fun hm => hr (hp2mem _ hm))
              · exact lastNotWhite_of hp2last
              · left
                cases p2 with
                | nil => exact absurd rfl hp2ne
                | cons a b => rfl
              · constructor
                · revert hx
                  cases pyStarts p1 ['@'] && pyEnds p1 ['@'] <;> simp
                · right
                  cases p2 with
                  | nil => exact absurd rfl hp2ne
                  | cons a b => rfl

theorem splitCharAux_no_sep (sep : Char) :
    ∀ (s : Str) (m : Nat) (acc : Str), (∀ c ∈ s, c ≠ sep) →
      splitCharAux sep m acc s = [acc.reverse ++ s] := by
  intro s
  induction s with
  | nil => intro m acc _; cases m <;> simp [splitCharAux]
  | cons c rest ih =>
    intro m acc h
    cases m with
    | zero => rfl
    | succ m' =>
      unfold splitCharAux
      rw [if_neg (h c (by simp))]
      rw [ih (m' + 1) (c :: acc) (fun d hd => h d (by simp [hd]))]
      simp

theorem splitChar_no_sep (sep : Char) (m : Nat) (s : Str) (h : ∀ c ∈ s, c ≠ sep) :
    splitChar sep m s = [s] := by
  unfold splitChar
  rw [splitCharAux_no_sep sep s m [] h]
  rfl

theorem splitCharAux_break (sep : Char) :
    ∀ (a : Str) (m : Nat) (acc b : Str), (∀ c ∈ a, c ≠ sep) →
      splitCharAux sep (m + 1) acc (a ++ sep :: b)
        = (acc.reverse ++ a) :: splitChar sep m b := by
  intro a
  induction a with
  | nil =>
    intro m acc b _
    show splitCharAux sep (Nat.succ m) acc ([] ++ sep :: b) = (acc.reverse ++ []) :: splitChar sep m b
    rw [List.nil_append, List.append_nil]
    unfold splitCharAux
    rw [if_pos rfl]
    rfl
  | cons c rest ih =>
    intro m acc b h
    rw [List.cons_append]
    unfold splitCharAux
    rw [if_neg (h c (by simp))]
    rw [ih m (c :: acc) b (fun d hd => h d (by simp [hd]))]
    simp

theorem splitChar_break (sep : Char) (m : Nat) (a b : Str) (h : ∀ c ∈ a, c ≠ sep) :
    splitChar sep (m + 1) (a ++ sep :: b) = a :: splitChar sep m b := by
  unfold splitChar
  rw [splitCharAux_break sep a m [] b h]
  rfl

theorem intercalate_single {α : Type} (sep : α) (a : List α) :
    List.intercalate [sep] [a] = a := by
  simp [List.intercalate]

theorem intercalate_quad {α : Type} (sep : α) (a b c d : List α) :
    List.intercalate [sep] [a, b, c, d] = a ++ sep :: (b ++ sep :: (c ++ sep :: d)) := by
  simp [List.intercalate, List.intersperse]

theorem not_mem_of_contains_false {l : Str} {a : Char} (h : l.contains a = false) : a ∉ l := by
  intro hm
  simp at h
  exact h hm

theorem pyEnds_getLast {x : Str} (h : pyEnds x ['@'] = true) : x.getLast? = some '@' := by
  unfold pyEnds at h
  obtain ⟨pre, hpre⟩ := (List.isSuffixOf_iff_suffix.mp h)
  rw [← hpre, List.getLast?_concat]

theorem pyStarts_ne_nil {x : Str} (h : pyStarts x ['@'] = true) : x ≠ [] := by
  unfold pyStarts at h
  intro hnil
  rw [hnil] at h
  simp [List.isPrefixOf] at h

theorem head?_append_left {α : Type} (l l' : List α) (h : l ≠ []) :
    (l ++ l').head? = l.head? := by
  cases l with
  | nil => exact absurd rfl h
  | cons a t => rfl

theorem intToStr_not_white (i : Int) : ∀ c ∈ intToStr i, isPyWhite c = false := by
  unfold intToStr
  by_cases h : i < 0
  · rw [if_pos h]
    intro c hc
    rcases List.mem_cons.mp hc with h1 | h2
    · rw [h1]
      rfl
    · exact natToStr_not_white _ c h2
  · rw [if_neg h]
    exact natToStr_not_white _

theorem intToStr_ne_nil (i : Int) : intToStr i ≠ [] := by
  unfold intToStr
  by_cases h : i < 0
  · rw [if_pos h]
    simp
  · rw [if_neg h]
    exact natToStr_ne_nil _

theorem intToStr_no_space (i : Int) : ∀ c ∈ intToStr i, c ≠ ' ' := by
  intro c hc he
  have := intToStr_not_white i c hc
  rw [he] at this
  rw [white_space_char] at this
  exact absurd this (by simp)

theorem goodTokB_elim (t : Tok) (hg : goodTokB t = true) :
    t.tag.contains ' ' = false ∧ cleanStr t.tag = true ∧ cleanStr t.value = true
      ∧ lastNotWhite t.value = true
      ∧ (t.value.isEmpty = false ∨ t.tag.isEmpty = true ∨ lastNotWhite t.tag = true)
      ∧ (match t.xref with
          | some x => pyStarts x ['@'] = true ∧ pyEnds x ['@'] = true
              ∧ x.contains ' ' = false ∧ cleanStr x = true
          | none => (pyStarts t.tag ['@'] && pyEnds t.tag ['@']) = false
              ∧ (t.tag.isEmpty = false ∨ t.value.isEmpty = false)) := by
  unfold goodTokB at hg
  simp only [Bool.and_eq_true] at hg
  obtain ⟨⟨⟨⟨⟨h1, h2⟩, h3⟩, h4⟩, h5⟩, h6⟩ := hg
  refine ⟨by simpa using h1, h2, h3, h4, ?_, ?_⟩
  · rcases Bool.or_eq_true_iff.mp h5 with h | h
    · rcases Bool.or_eq_true_iff.mp h with h | h
      · exact Or.inl (by simpa using h)
      · exact Or.inr (Or.inl h)
    · exact Or.inr (Or.inr h)
  · cases hx : t.xref with
    | some x =>
      rw [hx] at h6
      simp only [Bool.and_eq_true] at h6
      obtain ⟨⟨⟨a, b⟩, c⟩, d⟩ := h6
      exact ⟨a, b, by simpa using c, d⟩
    | none =>
      rw [hx] at h6
      simp only [Bool.and_eq_true] at h6
      obtain ⟨a, b⟩ := h6
      refine ⟨by revert a; cases (pyStarts t.tag ['@'] && pyEnds t.tag ['@']) <;> simp, ?_⟩
      rcases Bool.or_eq_true_iff.mp b with h | h
      · exact Or.inl (by simpa using h)
      · exact Or.inr (by simpa using h)

theorem splitChar_zero (sep : Char) (s : Str) : splitChar sep 0 s = [s] := by
  cases s <;> rfl

theorem lastNotWhite_elim {v : Str} (h : lastNotWhite v = true) :
    ∀ d, v.getLast? = some d → isPyWhite d = false := by
  intro d hd
  unfold lastNotWhite at h
  rw [hd] at h
  simpa using h

theorem mem_of_head?_some {α : Type} {l : List α} {a : α} (h : l.head? = some a) : a ∈ l := by
  cases l with
  | nil => cases h
  | cons b t =>
    rw [Option.some.inj h]
    exact List.mem_cons_self a t

theorem optTruthy_some_of_ne_nil {x : Str} (h : x ≠ []) : optTruthy (some x) = true := by
  unfold optTruthy
  cases x with
  | nil => exact absurd rfl h
  | cons c t => rfl

theorem ne_nil_of_isEmpty_false {α : Type} {l : List α} (h : l.isEmpty = false) : l ≠ [] := by
  cases l with
  | nil => simp at h
  | cons a t => simp

theorem isEmpty_false_of_ne_nil {α : Type} {l : List α} (h : l ≠ []) : l.isEmpty = false := by
  cases l with
  | nil => exact absurd rfl h
  | cons a t => rfl

theorem append_ne_nil_left {α : Type} {a : List α} (b : List α) (h : a ≠ []) : a ++ b ≠ [] := by
  cases a with
  | nil => exact absurd rfl h
  | cons c t => simp

theorem serializeFields_none (lvl : Int) (tag value : Str) :
    serializeFields lvl none tag value
      = List.intercalate [' '] ([intToStr lvl, tag]
          ++ (if value.isEmpty then [] else [value])) := rfl

theorem serializeFields_some (lvl : Int) (x tag value : Str) (hx : x ≠ []) :
    serializeFields lvl (some x) tag value
      = List.intercalate [' '] ([intToStr lvl, x, tag]
          ++ (if value.isEmpty then [] else [value])) := by
  unfold serializeFields
  rw [if_pos (optTruthy_some_of_ne_nil hx)]
  rfl

theorem tokenize_serialize (t : Tok) (hg : goodTokB t = true) :
    tokenizeLine (serializeFields t.level t.xref t.tag t.value) = .ok (some t) := by
  obtain ⟨lvl, xref, tag, value⟩ := t
  obtain ⟨h1, h2, h3, h4, h5, h6⟩ := goodTokB_elim ⟨lvl, xref, tag, value⟩ hg
  dsimp only at h1 h2 h3 h4 h5 h6
  have hann : intToStr lvl ≠ [] := intToStr_ne_nil lvl
  have hasp : ∀ c ∈ intToStr lvl, c ≠ ' ' := intToStr_no_space lvl
  have hahead : ∀ c : Char, (intToStr lvl).head? = some c → isPyWhite c = false :=
    fun c hc => intToStr_not_white lvl c (mem_of_head?_some hc)
  have htagsp : ∀ c ∈ tag, c ≠ ' ' :=
    fun c hc he => (not_mem_of_contains_false h1) (he ▸ hc)
  cases xref with
  | none =>
    obtain ⟨h6a, h6b⟩ := h6
    cases value with
    | nil =>
      have htne : tag ≠ [] := by
        rcases h6b with h | h
        · exact ne_nil_of_isEmpty_false h
        · simp at h
      have htlast : ∀ d, tag.getLast? = some d → isPyWhite d = false := by
        rcases h5 with h | h | h
        · simp at h
        · rw [isEmpty_false_of_ne_nil htne] at h
          exact absurd h (by simp)
        · exact lastNotWhite_elim h
      have hL : serializeFields lvl none tag [] = intToStr lvl ++ ' ' :: tag := by
        rw [serializeFields_none]
        exact intercalate_pair ' ' _ _
      have hstrip : pyStrip (intToStr lvl ++ ' ' :: tag) = intToStr lvl ++ ' ' :: tag := by
        apply pyStrip_eq_self_of_ends
        · intro c hc
          rw [head?_append_left _ _ hann] at hc
          exact hahead c hc
        · intro c hc
          rw [List.getLast?_append_cons, getLast?_cons_of_ne_nil _ _ htne] at hc
          exact htlast c hc
      have hsplit : splitChar ' ' 2 (intToStr lvl ++ ' ' :: tag) = [intToStr lvl, tag] := by
        rw [splitChar_break ' ' 1 _ _ hasp, splitChar_no_sep ' ' 1 tag htagsp]
      rw [hL]
      unfold tokenizeLine
      dsimp only
      rw [hstrip, isEmpty_false_of_ne_nil (append_ne_nil_left _ hann)]
      simp only [Bool.false_eq_true, if_false]
      rw [hsplit]
      dsimp only
      rw [pyInt_intToStr lvl]
      dsimp only
      rw [h6a]
      simp only [Bool.false_eq_true, if_false]
      rfl
    | cons vc vrest =>
      have hvne : (vc :: vrest : Str) ≠ [] := by simp
      have hL : serializeFields lvl none tag (vc :: vrest)
          = intToStr lvl ++ ' ' :: (tag ++ ' ' :: (vc :: vrest)) := by
        rw [serializeFields_none]
        exact intercalate_triple ' ' _ _ _
      have hmidne : tag ++ ' ' :: (vc :: vrest) ≠ [] := by simp
      have hstrip : pyStrip (intToStr lvl ++ ' ' :: (tag ++ ' ' :: (vc :: vrest)))
          = intToStr lvl ++ ' ' :: (tag ++ ' ' :: (vc :: vrest)) := by
        apply pyStrip_eq_self_of_ends
        · intro c hc
          rw [head?_append_left _ _ hann] at hc
          exact hahead c hc
        · intro c hc
          rw [List.getLast?_append_cons, getLast?_cons_of_ne_nil _ _ hmidne,
            List.getLast?_append_cons, getLast?_cons_of_ne_nil _ _ hvne] at hc
          exact lastNotWhite_elim h4 c hc
      have hsplit : splitChar ' ' 2 (intToStr lvl ++ ' ' :: (tag ++ ' ' :: (vc :: vrest)))
          = [intToStr lvl, tag, vc :: vrest] := by
        rw [splitChar_break ' ' 1 _ _ hasp, splitChar_break ' ' 0 _ _ htagsp,
          splitChar_zero]
      rw [hL]
      unfold tokenizeLine
      dsimp only
      rw [hstrip, isEmpty_false_of_ne_nil (append_ne_nil_left _ hann)]
      simp only [Bool.false_eq_true, if_false]
      rw [hsplit]
      dsimp only
      rw [pyInt_intToStr lvl]
      dsimp only
      rw [h6a]
      simp only [Bool.false_eq_true, if_false]
      rfl
  | some x =>
    obtain ⟨hxs, hxe, hxsp, _⟩ := h6
    have hxne : x ≠ [] := pyStarts_ne_nil hxs
    have hxfree : ∀ c ∈ x, c ≠ ' ' :=
      fun c hc he => (not_mem_of_contains_false hxsp) (he ▸ hc)
    have hxlast : x.getLast? = some '@' := pyEnds_getLast hxe
    have hcond : (pyStarts x ['@'] && pyEnds x ['@']) = true := by rw [hxs, hxe]; rfl
    cases value with
    | nil =>
      cases tag with
      | nil =>
        have hL : serializeFields lvl (some x) [] []
            = (intToStr lvl ++ ' ' :: x) ++ [' '] := by
          rw [serializeFields_some lvl x [] [] hxne]
          rw [(by rfl : ([intToStr lvl, x, []] ++ (if ([] : Str).isEmpty then [] else [[]]))
            = [intToStr lvl, x, []])]
          rw [intercalate_triple]
          simp
        have hstrip : pyStrip ((intToStr lvl ++ ' ' :: x) ++ [' '])
            = intToStr lvl ++ ' ' :: x := by
          rw [pyStrip_snoc_white white_space_char]
          apply pyStrip_eq_self_of_ends
          · intro c hc
            rw [head?_append_left _ _ hann] at hc
            exact hahead c hc
          · intro c hc
            rw [List.getLast?_append_cons, getLast?_cons_of_ne_nil _ _ hxne, hxlast] at hc
            rw [← Option.some.inj hc]
            rfl
        have hsplit : splitChar ' ' 2 (intToStr lvl ++ ' ' :: x) = [intToStr lvl, x] := by
          rw [splitChar_break ' ' 1 _ _ hasp, splitChar_no_sep ' ' 1 x hxfree]
        rw [hL]
        unfold tokenizeLine
        dsimp only
        rw [hstrip, isEmpty_false_of_ne_nil (append_ne_nil_left _ hann)]
        simp only [Bool.false_eq_true, if_false]
        rw [hsplit]
        dsimp only
        rw [pyInt_intToStr lvl]
        dsimp only
        rw [if_pos hcond]
      | cons tc trest =>
        have htne : (tc :: trest : Str) ≠ [] := by simp
        have htlast : ∀ d, (tc :: trest : Str).getLast? = some d → isPyWhite d = false := by
          rcases h5 with h | h | h
          · simp at h
          · simp at h
          · exact lastNotWhite_elim h
        have hL : serializeFields lvl (some x) (tc :: trest) []
            = intToStr lvl ++ ' ' :: (x ++ ' ' :: (tc :: trest)) := by
          rw [serializeFields_some lvl x (tc :: trest) [] hxne]
          rw [(by rfl : ([intToStr lvl, x, tc :: trest]
              ++ (if ([] : Str).isEmpty then [] else [[]]))
            = [intToStr lvl, x, tc :: trest])]
          exact intercalate_triple ' ' _ _ _
        have hmidne : x ++ ' ' :: (tc :: trest) ≠ [] := by simp
        have hstrip : pyStrip (intToStr lvl ++ ' ' :: (x ++ ' ' :: (tc :: trest)))
            = intToStr lvl ++ ' ' :: (x ++ ' ' :: (tc :: trest)) := by
          apply pyStrip_eq_self_of_ends
          · intro c hc
            rw [head?_append_left _ _ hann] at hc
            exact hahead c hc
          · intro c hc
            rw [List.getLast?_append_cons, getLast?_cons_of_ne_nil _ _ hmidne,
              List.getLast?_append_cons, getLast?_cons_of_ne_nil _ _ htne] at hc
            exact htlast c hc
        have hsplit : splitChar ' ' 2 (intToStr lvl ++ ' ' :: (x ++ ' ' :: (tc :: trest)))
            = [intToStr lvl, x, tc :: trest] := by
          rw [splitChar_break ' ' 1 _ _ hasp, splitChar_break ' ' 0 _ _ hxfree,
            splitChar_zero]
        rw [hL]
        unfold tokenizeLine
        dsimp only
        rw [hstrip, isEmpty_false_of_ne_nil (append_ne_nil_left _ hann)]
        simp only [Bool.false_eq_true, if_false]
        rw [hsplit]
        dsimp only
        rw [pyInt_intToStr lvl]
        dsimp only
        rw [if_pos hcond]
        rw [splitChar_no_sep ' ' 1 (tc :: trest) htagsp]
        rfl
    | cons vc vrest =>
      have hvne : (vc :: vrest : Str) ≠ [] := by simp
      have hL : serializeFields lvl (some x) tag (vc :: vrest)
          = intToStr lvl ++ ' ' :: (x ++ ' ' :: (tag ++ ' ' :: (vc :: vrest))) := by
        rw [serializeFields_some lvl x tag (vc :: vrest) hxne]
        exact intercalate_quad ' ' _ _ _ _
      have hmid1 : x ++ ' ' :: (tag ++ ' ' :: (vc :: vrest)) ≠ [] := by simp
      have hmid2 : tag ++ ' ' :: (vc :: vrest) ≠ [] := by simp
      have hstrip : pyStrip (intToStr lvl ++ ' ' :: (x ++ ' ' :: (tag ++ ' ' :: (vc :: vrest))))
          = intToStr lvl ++ ' ' :: (x ++ ' ' :: (tag ++ ' ' :: (vc :: vrest))) := by
        apply pyStrip_eq_self_of_ends
        · intro c hc
          rw [head?_append_left _ _ hann] at hc
          exact hahead c hc
        · intro c hc
          rw [List.getLast?_append_cons, getLast?_cons_of_ne_nil _ _ hmid1,
            List.getLast?_append_cons, getLast?_cons_of_ne_nil _ _ hmid2,
            List.getLast?_append_cons, getLast?_cons_of_ne_nil _ _ hvne] at hc
          exact lastNotWhite_elim h4 c hc
      have hsplit : splitChar ' ' 2
            (intToStr lvl ++ ' ' :: (x ++ ' ' :: (tag ++ ' ' :: (vc :: vrest))))
          = [intToStr lvl, x, tag ++ ' ' :: (vc :: vrest)] := by
        rw [splitChar_break ' ' 1 _ _ hasp, splitChar_break ' ' 0 _ _ hxfree,
          splitChar_zero]
      rw [hL]
      unfold tokenizeLine
      dsimp only
      rw [hstrip, isEmpty_false_of_ne_nil (append_ne_nil_left _ hann)]
      simp only [Bool.false_eq_true, if_false]
      rw [hsplit]
      dsimp only
      rw [pyInt_intToStr lvl]
      dsimp only
      rw [if_pos hcond]
      rw [splitChar_break ' ' 0 _ _ htagsp, splitChar_zero]
      rfl

theorem wfNode_eq (pl : Int) (c : Node) :
    wfNode pl c
      = (goodTokB (tokOf c) && decide (pl < c.level) && wfChildren c.level c.children) := by
  cases c
  rfl

theorem wfChildren_one (pl : Int) (c : Node) : wfChildren pl [c] = wfNode pl c := rfl

theorem wfChildren_cons2 (pl : Int) (a b : Node) (r : List Node) :
    wfChildren pl (a :: b :: r)
      = (wfNode pl a && decide (b.level ≤ a.level) && wfChildren pl (b :: r)) := rfl

theorem lastLevelGE_snoc (v : Int) (cs : List Node) (c : Node) :
    lastLevelGE v (cs ++ [c]) ↔ v ≤ c.level := by
  unfold lastLevelGE
  rw [List.getLast?_concat]

theorem lastLevelGE_cons (v : Int) (a b : Node) (r : List Node) :
    lastLevelGE v (a :: b :: r) ↔ lastLevelGE v (b :: r) := by
  unfold lastLevelGE
  rw [getLast?_cons_of_ne_nil _ _ (List.cons_ne_nil b r)]

theorem wfChildren_snoc (pl : Int) (c : Node) :
    ∀ cs, wfChildren pl cs = true → lastLevelGE c.level cs → wfNode pl c = true →
      wfChildren pl (cs ++ [c]) = true := by
  intro cs
  induction cs with
  | nil =>
    intro _ _ h3
    show wfChildren pl [c] = true
    rw [wfChildren_one]
    exact h3
  | cons c1 rest ih =>
    intro h1 h2 h3
    cases rest with
    | nil =>
      have hle : c.level ≤ c1.level := by
        unfold lastLevelGE at h2
        simpa using h2
      have h1' : wfNode pl c1 = true := by rw [wfChildren_one] at h1; exact h1
      show wfChildren pl (c1 :: c :: []) = true
      rw [wfChildren_cons2, h1', wfChildren_one pl c, h3]
      simp [hle]
    | cons c2 r2 =>
      rw [wfChildren_cons2] at h1
      simp only [Bool.and_eq_true] at h1
      obtain ⟨⟨ha, hb⟩, hc⟩ := h1
      show wfChildren pl (c1 :: c2 :: (r2 ++ [c])) = true
      rw [wfChildren_cons2, ha, hb]
      have := ih hc ((lastLevelGE_cons _ _ _ _).mp h2) h3
      rw [(by simp : (c2 :: r2) ++ [c] = c2 :: (r2 ++ [c]))] at this
      rw [this]
      rfl

theorem StackOK_head {l : Int} {n : Node} {rest : List (Int × Node)}
    (h : StackOK ((l, n) :: rest)) :
    n.level = l ∧ goodTokB (tokOf n) = true ∧ wfChildren l n.children = true := by
  cases rest with
  | nil => exact ⟨h.1, h.2.2.1, h.2.2.2.2⟩
  | cons e r => exact ⟨h.1, h.2.1, h.2.2.1⟩

theorem tokOf_setChildren (p : Node) (cs : List Node) :
    tokOf { p with children := cs } = tokOf p := by
  cases p
  rfl

theorem level_setChildren (p : Node) (cs : List Node) :
    (Node.children { p with children := cs }).length = cs.length := by
  cases p
  rfl

theorem StackOK_attach {l : Int} {p : Node} {rest2 : List (Int × Node)} {c : Node} {lc : Int}
    (hok2 : StackOK ((l, p) :: rest2)) (hgood : goodTokB (tokOf c) = true)
    (hwfc : wfChildren lc c.children = true) (hcl : c.level = lc) (hlt : l < lc)
    (hlast : lastLevelGE lc p.children) :
    StackOK ((l, { p with children := p.children ++ [c] }) :: rest2) := by
  have hwfn : wfNode l c = true := by
    rw [wfNode_eq, hcl]
    simp [hgood, hwfc, hlt]
  have hwf' : wfChildren l (p.children ++ [c]) = true :=
    wfChildren_snoc l c p.children (StackOK_head hok2).2.2 (hcl ▸ hlast) hwfn
  obtain ⟨pl, pt, pv, px, pch⟩ := p
  cases rest2 with
  | nil =>
    obtain ⟨h1, h2, h3, h4, _⟩ := hok2
    exact ⟨h1, h2, h3, h4, hwf'⟩
  | cons e r =>
    obtain ⟨e1, e2⟩ := e
    obtain ⟨h1, h2, _, h4, h5, h6⟩ := hok2
    exact ⟨h1, h2, hwf', h4, h5, h6⟩

theorem popCarry_cons (lv : Int) (c : Node) (l : Int) (p : Node) (rest : List (Int × Node)) :
    popCarry lv c ((l, p) :: rest)
      = (if lv ≤ l then popCarry lv { p with children := p.children ++ [c] } rest
         else ((l, { p with children := p.children ++ [c] }) :: rest, [])) := rfl

theorem collapseCarry_cons (c : Node) (l : Int) (p : Node) (rest : List (Int × Node)) :
    collapseCarry c ((l, p) :: rest)
      = collapseCarry { p with children := p.children ++ [c] } rest := rfl

theorem popCarry_spec (lv : Int) :
    ∀ (rest : List (Int × Node)) (c : Node) (lc : Int),
      StackOK ((lc, c) :: rest) → lv ≤ lc →
      popCarry lv c rest = ([], [collapseCarry c rest])
      ∨ ∃ l' p' rest', popCarry lv c rest = ((l', p') :: rest', [])
          ∧ StackOK ((l', p') :: rest') ∧ l' < lv ∧ lastLevelGE lv p'.children := by
  intro rest
  induction rest with
  | nil =>
    intro c lc _ _
    left
    rfl
  | cons e rest2 ih =>
    obtain ⟨l, p⟩ := e
    intro c lc hok hle
    obtain ⟨hcl, hgood, hwfc, hlt, hlast, hok2⟩ := hok
    have hok' := StackOK_attach hok2 hgood hwfc hcl hlt hlast
    rw [popCarry_cons]
    by_cases h : lv ≤ l
    · rw [if_pos h]
      rcases ih _ l hok' h with hfull | hpart
      · left
        rw [hfull, collapseCarry_cons]
      · exact Or.inr hpart
    · rw [if_neg h]
      right
      refine ⟨l, _, rest2, rfl, hok', by omega, ?_⟩
      rw [lastLevelGE_snoc]
      omega

theorem collapseCarry_wf :
    ∀ (rest : List (Int × Node)) (c : Node) (lc : Int),
      StackOK ((lc, c) :: rest) → wfRoot (collapseCarry c rest) = true := by
  intro rest
  induction rest with
  | nil =>
    intro c lc hok
    obtain ⟨hcl, hl0, hg, hgar, hwf⟩ := hok
    show wfRoot c = true
    unfold wfRoot
    rw [hg, hgar]
    rw [hl0] at hcl hwf
    simp [hwf, hcl]
  | cons e rest2 ih =>
    obtain ⟨l, p⟩ := e
    intro c lc hok
    obtain ⟨hcl, hgood, hwfc, hlt, hlast, hok2⟩ := hok
    rw [collapseCarry_cons]
    exact ih _ l (StackOK_attach hok2 hgood hwfc hcl hlt hlast)

theorem collapseStack_wf {s : List (Int × Node)} (h : StackOK s) :
    ∀ r ∈ collapseStack s, wfRoot r = true := by
  cases s with
  | nil => intro r hr; cases hr
  | cons e rest =>
    obtain ⟨l, n⟩ := e
    intro r hr
    rcases List.mem_singleton.mp hr with h'
    rw [h']
    exact collapseCarry_wf rest n l h

theorem popGE_cons (lv l : Int) (n : Node) (rest : List (Int × Node)) :
    popGE lv ((l, n) :: rest)
      = (if lv ≤ l then popCarry lv n rest else ((l, n) :: rest, [])) := rfl

theorem isGarbage_false_of_not (t : Tok) (h : ¬ isGarbage t = true) : isGarbage t = false := by
  cases hq : isGarbage t with
  | false => rfl
  | true => exact absurd hq h

theorem processLine_inv {st st' : PState} {line : Str}
    (hn : '\n' ∉ line) (hr : '\x0d' ∉ line)
    (h : processLine st line = .ok st') (hinv : InvP st) : InvP st' := by
  obtain ⟨hrec, hok, htop⟩ := hinv
  unfold processLine at h
  cases htok : tokenizeLine line with
  | error e => rw [htok] at h; cases h
  | ok ot =>
    cases ot with
    | none =>
      rw [htok] at h
      dsimp only at h
      rw [← Except.ok.inj h]
      exact ⟨hrec, hok, htop⟩
    | some t =>
      rw [htok] at h
      dsimp only at h
      have hgood : goodTokB t = true := tokenize_good line t hn hr htok
      by_cases hgar : isGarbage t = true
      · rw [if_pos hgar] at h
        rw [← Except.ok.inj h]
        exact ⟨hrec, hok, htop⟩
      · rw [if_neg hgar] at h
        by_cases hz : t.level = 0
        · rw [if_pos hz] at h
          rw [← Except.ok.inj h]
          refine ⟨?_, ?_, ?_⟩
          · intro r hrmem
            rcases List.mem_append.mp hrmem with hA | hB
            · exact hrec r hA
            · exact collapseStack_wf hok r hB
          · exact ⟨hz, rfl, hgood, isGarbage_false_of_not t hgar, rfl⟩
          · exact rfl
        · rw [if_neg hz] at h
          cases hs : st.stack with
          | nil =>
            rw [hs] at h
            dsimp only [popGE] at h
            rw [← Except.ok.inj h]
            refine ⟨?_, trivial, trivial⟩
            intro r hrmem
            rw [List.append_nil] at hrmem
            exact hrec r hrmem
          | cons e rest =>
            obtain ⟨l, n⟩ := e
            rw [hs] at h hok htop
            rw [popGE_cons] at h
            by_cases hcmp : t.level ≤ l
            · rw [if_pos hcmp] at h
              rcases popCarry_spec t.level rest n l hok hcmp with hfull | hpart
              · rw [hfull] at h
                dsimp only at h
                rw [← Except.ok.inj h]
                refine ⟨?_, trivial, trivial⟩
                intro r hrmem
                rcases List.mem_append.mp hrmem with hA | hB
                · exact hrec r hA
                · rw [List.mem_singleton.mp hB]
                  exact collapseCarry_wf rest n l hok
              · obtain ⟨l', p', r', heq, hok', hl', hll'⟩ := hpart
                rw [heq] at h
                dsimp only at h
                rw [← Except.ok.inj h]
                refine ⟨?_, ?_, ?_⟩
                · intro r hrmem
                  rw [List.append_nil] at hrmem
                  exact hrec r hrmem
                · exact ⟨rfl, hgood, rfl, hl', hll', hok'⟩
                · exact rfl
            · rw [if_neg hcmp] at h
              dsimp only at h
              rw [← Except.ok.inj h]
              refine ⟨?_, ?_, ?_⟩
              · intro r hrmem
                rw [List.append_nil] at hrmem
                exact hrec r hrmem
              · refine ⟨rfl, hgood, rfl, by omega, ?_, hok⟩
                have hne : n.children = [] := htop
                rw [hne]
                trivial
              · exact rfl

theorem foldlM_inv :
    ∀ (lines : List Str) (st : PState),
      (∀ l ∈ lines, '\n' ∉ l ∧ '\x0d' ∉ l) → InvP st →
      ∀ st', List.foldlM processLine st lines = .ok st' → InvP st' := by
  intro lines
  induction lines with
  | nil =>
    intro st _ hinv st' h
    rw [List.foldlM_nil] at h
    rw [← Except.ok.inj h]
    exact hinv
  | cons l ls ih =>
    intro st hcl hinv st' h
    rw [List.foldlM_cons] at h
    cases hstep : processLine st l with
    | error e =>
      rw [hstep] at h
      have hred : ((Except.error e : Except Unit PState) >>= fun s =>
          List.foldlM processLine s ls) = (.error e : Except Unit PState) := rfl
      rw [hred] at h
      cases h
    | ok st1 =>
      rw [hstep] at h
      have hred : ((Except.ok st1 : Except Unit PState) >>= fun s =>
          List.foldlM processLine s ls) = List.foldlM processLine st1 ls := rfl
      rw [hred] at h
      have hinv1 := processLine_inv (hcl l (by simp)).1 (hcl l (by simp)).2 hstep hinv
      exact ih st1 (fun x hx => hcl x (by simp [hx])) hinv1 st' h

theorem parse_wf {lines : List Str} {rs : List Node} {m : List (Str × Nat)}
    (hcl : ∀ l ∈ lines, '\n' ∉ l ∧ '\x0d' ∉ l)
    (hp : parse_gedcom_lines lines = .ok (rs, m)) :
    ∀ r ∈ rs, wfRoot r = true := by
  unfold parse_gedcom_lines at hp
  cases hf : List.foldlM processLine ⟨[], [], []⟩ lines with
  | error e => rw [hf] at hp; cases hp
  | ok st =>
    rw [hf] at hp
    dsimp only at hp
    have hinv : InvP st :=
      foldlM_inv lines ⟨[], [], []⟩ hcl ⟨fun r hr => absurd hr (List.not_mem_nil r), trivial, trivial⟩ st hf
    have hrs : rs = st.records ++ collapseStack st.stack := by
      have := Except.ok.inj hp
      exact (congrArg Prod.fst this).symm
    intro r hrmem
    rw [hrs] at hrmem
    rcases List.mem_append.mp hrmem with hA | hB
    · exact hinv.1 r hA
    · exact collapseStack_wf hinv.2.1 r hB

theorem wfChildren_head {lc : Int} {c1 : Node} {r : List Node}
    (h : wfChildren lc (c1 :: r) = true) : wfNode lc c1 = true := by
  cases r with
  | nil => exact h
  | cons c2 r2 =>
    rw [wfChildren_cons2] at h
    simp only [Bool.and_eq_true] at h
    exact h.1.1

theorem wfChildren_tail {lc : Int} {c1 : Node} {r : List Node}
    (h : wfChildren lc (c1 :: r) = true) : wfChildren lc r = true := by
  cases r with
  | nil => rfl
  | cons c2 r2 =>
    rw [wfChildren_cons2] at h
    simp only [Bool.and_eq_true] at h
    exact h.2

theorem wfChildren_levels {lc : Int} :
    ∀ {cs : List Node} {c1 : Node}, wfChildren lc (c1 :: cs) = true →
      ∀ c ∈ cs, c.level ≤ c1.level := by
  intro cs
  induction cs with
  | nil => intro c1 _ c hc; cases hc
  | cons c2 r2 ih =>
    intro c1 h c hc
    rw [wfChildren_cons2] at h
    simp only [Bool.and_eq_true, decide_eq_true_eq] at h
    rcases List.mem_cons.mp hc with h1 | h2
    · rw [h1]; exact h.1.2
    · exact le_trans (ih h.2 c h2) h.1.2

theorem headBound {lc : Int} {cs : List Node} (h : wfChildren lc cs = true) :
    ∃ B, lc ≤ B ∧ ∀ c ∈ cs, c.level ≤ B := by
  cases cs with
  | nil => exact ⟨lc, le_refl lc, fun c hc => absurd hc (List.not_mem_nil c)⟩
  | cons c1 r =>
    have h1 := wfChildren_head h
    rw [wfNode_eq] at h1
    simp only [Bool.and_eq_true, decide_eq_true_eq] at h1
    refine ⟨c1.level, le_of_lt h1.1.2, ?_⟩
    intro c hc
    rcases List.mem_cons.mp hc with h2 | h3
    · rw [h2]
    · exact wfChildren_levels h c h3

theorem isGarbage_false_of_level {t : Tok} (h : ¬ t.level = 0) : isGarbage t = false := by
  unfold isGarbage
  rw [beq_eq_false_iff_ne.mpr h]
  rfl

theorem popGE_shift (v l1 lc : Int) (cF cP : Node) (s : List (Int × Node)) (h : v ≤ l1) :
    popGE v ((l1, cF) :: (lc, cP) :: s)
      = popGE v ((lc, { cP with children := cP.children ++ [cF] }) :: s) := by
  rw [popGE_cons, if_pos h, popCarry_cons, popGE_cons]

theorem collapse_shift (l1 lc : Int) (cF cP : Node) (s : List (Int × Node)) :
    collapseStack ((l1, cF) :: (lc, cP) :: s)
      = collapseStack ((lc, { cP with children := cP.children ++ [cF] }) :: s) := rfl

theorem linesOf_eq (l : Int) (t v : Str) (x : Option Str) (ch : List Node) :
    linesOf ⟨l, t, v, x, ch⟩ = serializeFields l x t v :: linesOfList ch := rfl

theorem linesOfList_cons (c : Node) (cs : List Node) :
    linesOfList (c :: cs) = linesOf c ++ linesOfList cs := rfl

theorem setChildren_nil_append (p : Node) : { p with children := p.children ++ [] } = p := by
  cases p
  simp

theorem setChildren_twice (p : Node) (A B : List Node) :
    { (⟨p.level, p.tag, p.value, p.xref, A⟩ : Node) with children := A ++ B }
      = { p with children := A ++ B } := by
  cases p
  rfl

theorem childrenSim :
    ∀ (N : Nat) (cs : List Node), sizeOf cs ≤ N →
      ∀ (lc B : Int) (cP : Node) (s a : List (Int × Node)) (recs : List Node)
        (m : List (Str × Nat)),
        wfChildren lc cs = true → 0 ≤ lc → lc ≤ B → (∀ c ∈ cs, c.level ≤ B) →
        (∀ v, v ≤ B → popGE v a = popGE v ((lc, cP) :: s)) →
        collapseStack a = collapseStack ((lc, cP) :: s) →
        ∃ sF, List.foldlM processLine (⟨recs, m, a⟩ : PState) (linesOfList cs)
            = .ok ⟨recs, m, sF⟩
          ∧ (∀ v, v ≤ lc →
              popGE v sF = popGE v ((lc, { cP with children := cP.children ++ cs }) :: s))
          ∧ collapseStack sF
              = collapseStack ((lc, { cP with children := cP.children ++ cs }) :: s) := by
  intro N
  induction N with
  | zero =>
    intro cs hsz
    exfalso
    cases cs with
    | nil => simp at hsz
    | cons c r => simp only [List.cons.sizeOf_spec] at hsz; omega
  | succ N ih =>
    intro cs hsz lc B cP s a recs m hwf hlc hlcB hlev hlike hcol
    cases cs with
    | nil =>
      refine ⟨a, rfl, ?_, ?_⟩
      · intro v hv
        rw [setChildren_nil_append]
        exact hlike v (le_trans hv hlcB)
      · rw [setChildren_nil_append]
        exact hcol
    | cons c1 rest =>
      obtain ⟨l1, t1, v1, x1, ch1⟩ := c1
      have hwfn1 := wfChildren_head hwf
      rw [wfNode_eq] at hwfn1
      simp only [Bool.and_eq_true, decide_eq_true_eq] at hwfn1
      obtain ⟨⟨hgood1, hlt1⟩, hwfch1⟩ := hwfn1
      have h0l1 : (0 : Int) < l1 := by omega
      have hszch : sizeOf ch1 ≤ N := by
        simp only [List.cons.sizeOf_spec, Node.mk.sizeOf_spec] at hsz
        omega
      have hszrest : sizeOf rest ≤ N := by
        simp only [List.cons.sizeOf_spec, Node.mk.sizeOf_spec] at hsz
        omega
      obtain ⟨B1, hl1B1, hlevB1⟩ := headBound hwfch1
      have htok1 : tokenizeLine (serializeFields l1 x1 t1 v1)
          = .ok (some ⟨l1, x1, t1, v1⟩) := tokenize_serialize ⟨l1, x1, t1, v1⟩ hgood1
      have hpopa : popGE l1 a = ((lc, cP) :: s, []) := by
        rw [hlike l1 (hlev ⟨l1, t1, v1, x1, ch1⟩ (by simp)), popGE_cons, if_neg (by omega)]
      have hstep : processLine (⟨recs, m, a⟩ : PState) (serializeFields l1 x1 t1 v1)
          = .ok ⟨recs, m, (l1, ⟨l1, t1, v1, x1, []⟩) :: (lc, cP) :: s⟩ := by
        unfold processLine
        rw [htok1]
        dsimp only
        rw [isGarbage_false_of_level (t := ⟨l1, x1, t1, v1⟩) (by omega : ¬ (l1 = (0 : Int)))]
        simp only [Bool.false_eq_true, if_false]
        rw [if_neg (by omega : ¬ (l1 = (0 : Int)))]
        rw [hpopa]
        dsimp only
        rw [List.append_nil]
      obtain ⟨s1, hfold1, hpop1, hcol1⟩ :=
        ih ch1 hszch l1 B1 ⟨l1, t1, v1, x1, []⟩ ((lc, cP) :: s)
          ((l1, (⟨l1, t1, v1, x1, []⟩ : Node)) :: (lc, cP) :: s) recs m
          hwfch1 (by omega) hl1B1 hlevB1 (fun v _ => rfl) rfl
      have hnode : ({(⟨l1, t1, v1, x1, []⟩ : Node) with
          children := (Node.children ⟨l1, t1, v1, x1, []⟩) ++ ch1}) = ⟨l1, t1, v1, x1, ch1⟩ := rfl
      rw [hnode] at hpop1 hcol1
      have hlike2 : ∀ v, v ≤ l1 → popGE v s1
          = popGE v ((lc, { cP with children := cP.children ++ [⟨l1, t1, v1, x1, ch1⟩] }) :: s) := by
        intro v hv
        rw [hpop1 v hv, popGE_shift v l1 lc _ cP s hv]
      have hcol2 : collapseStack s1
          = collapseStack ((lc, { cP with children := cP.children ++ [⟨l1, t1, v1, x1, ch1⟩] }) :: s) := by
        rw [hcol1, collapse_shift]
      have hlev2 : ∀ c ∈ rest, c.level ≤ l1 := wfChildren_levels hwf
      obtain ⟨sF, hfold2, hpop2, hcol3⟩ :=
        ih rest hszrest lc l1 { cP with children := cP.children ++ [⟨l1, t1, v1, x1, ch1⟩] }
          s s1 recs m (wfChildren_tail hwf) hlc (le_of_lt hlt1) hlev2 hlike2 hcol2
      have hfin : ({ { cP with children := cP.children ++ [(⟨l1, t1, v1, x1, ch1⟩ : Node)] } with
            children := (Node.children { cP with children := cP.children ++ [(⟨l1, t1, v1, x1, ch1⟩ : Node)] }) ++ rest })
          = { cP with children := cP.children ++ (⟨l1, t1, v1, x1, ch1⟩ :: rest) } := by
        cases cP
        simp
      rw [hfin] at hpop2 hcol3
      refine ⟨sF, ?_, hpop2, hcol3⟩
      show List.foldlM processLine (⟨recs, m, a⟩ : PState)
          (linesOfList (⟨l1, t1, v1, x1, ch1⟩ :: rest)) = .ok ⟨recs, m, sF⟩
      rw [linesOfList_cons, linesOf_eq, List.cons_append]
      rw [List.foldlM_cons, hstep]
      have hred1 : ((Except.ok (⟨recs, m, (l1, (⟨l1, t1, v1, x1, []⟩ : Node)) :: (lc, cP) :: s⟩ : PState)
            : Except Unit PState) >>= fun st =>
          List.foldlM processLine st (linesOfList ch1 ++ linesOfList rest))
          = List.foldlM processLine (⟨recs, m, (l1, (⟨l1, t1, v1, x1, []⟩ : Node)) :: (lc, cP) :: s⟩ : PState)
              (linesOfList ch1 ++ linesOfList rest) := rfl
      rw [hred1, List.foldlM_append, hfold1]
      have hred2 : ((Except.ok (⟨recs, m, s1⟩ : PState) : Except Unit PState) >>= fun st =>
          List.foldlM processLine st (linesOfList rest))
          = List.foldlM processLine (⟨recs, m, s1⟩ : PState) (linesOfList rest) := rfl
      rw [hred2]
      exact hfold2

theorem rootsSim :
    ∀ (rs : List Node) (recs : List Node) (m : List (Str × Nat)) (s : List (Int × Node)),
      (∀ r ∈ rs, wfRoot r = true) →
      ∃ st' : PState,
        List.foldlM processLine (⟨recs, m, s⟩ : PState) (rs.flatMap linesOf) = .ok st'
        ∧ st'.records ++ collapseStack st'.stack = recs ++ collapseStack s ++ rs := by
  intro rs
  induction rs with
  | nil =>
    intro recs m s _
    exact ⟨⟨recs, m, s⟩, rfl, by simp⟩
  | cons r rest ih =>
    intro recs m s hwf
    obtain ⟨l0, t0, v0, x0, ch0⟩ := r
    have hwfr := hwf ⟨l0, t0, v0, x0, ch0⟩ (by simp)
    unfold wfRoot at hwfr
    simp only [Bool.and_eq_true] at hwfr
    obtain ⟨⟨⟨hgood0, hlev0⟩, hgar0⟩, hwfch0⟩ := hwfr
    have hl0 : l0 = 0 := by simpa using hlev0
    subst hl0
    have hgarf : isGarbage (⟨0, x0, t0, v0⟩ : Tok) = false := by simpa using hgar0
    have htok : tokenizeLine (serializeFields 0 x0 t0 v0)
        = .ok (some ⟨0, x0, t0, v0⟩) := tokenize_serialize ⟨0, x0, t0, v0⟩ hgood0
    have hstep : ∃ M, processLine (⟨recs, m, s⟩ : PState) (serializeFields 0 x0 t0 v0)
        = .ok ⟨recs ++ collapseStack s, M, [(0, ⟨0, t0, v0, x0, []⟩)]⟩ := by
      unfold processLine
      rw [htok]
      dsimp only
      rw [hgarf]
      simp only [Bool.false_eq_true, if_false]
      rw [if_pos trivial]
      exact ⟨_, rfl⟩
    obtain ⟨M, hstep⟩ := hstep
    obtain ⟨B0, h0B0, hlevB0⟩ := headBound hwfch0
    obtain ⟨s1, hfold1, _, hcol1⟩ :=
      childrenSim (sizeOf ch0) ch0 (le_refl _) 0 B0 ⟨0, t0, v0, x0, []⟩ []
        [(0, (⟨0, t0, v0, x0, []⟩ : Node))] (recs ++ collapseStack s) M
        hwfch0 (le_refl 0) h0B0 hlevB0 (fun v _ => rfl) rfl
    have hcol1' : collapseStack s1 = [⟨0, t0, v0, x0, ch0⟩] := by
      rw [hcol1]
      rfl
    obtain ⟨st', hfold2, heq2⟩ := ih (recs ++ collapseStack s) M s1
      (fun x hx => hwf x (by simp [hx]))
    refine ⟨st', ?_, ?_⟩
    · show List.foldlM processLine (⟨recs, m, s⟩ : PState)
          ((⟨0, t0, v0, x0, ch0⟩ :: rest).flatMap linesOf) = .ok st'
      rw [List.flatMap_cons, linesOf_eq, List.cons_append]
      rw [List.foldlM_cons, hstep]
      have hred1 : ((Except.ok (⟨recs ++ collapseStack s, M, [(0, (⟨0, t0, v0, x0, []⟩ : Node))]⟩ : PState)
            : Except Unit PState) >>= fun st =>
          List.foldlM processLine st (linesOfList ch0 ++ rest.flatMap linesOf))
          = List.foldlM processLine
              (⟨recs ++ collapseStack s, M, [(0, (⟨0, t0, v0, x0, []⟩ : Node))]⟩ : PState)
              (linesOfList ch0 ++ rest.flatMap linesOf) := rfl
      rw [hred1, List.foldlM_append, hfold1]
      have hred2 : ((Except.ok (⟨recs ++ collapseStack s, M, s1⟩ : PState) : Except Unit PState)
            >>= fun st => List.foldlM processLine st (rest.flatMap linesOf))
          = List.foldlM processLine (⟨recs ++ collapseStack s, M, s1⟩ : PState)
              (rest.flatMap linesOf) := rfl
      rw [hred2]
      exact hfold2
    · rw [heq2, hcol1']
      simp

theorem splitAllChar_ne_nil (sep : Char) : ∀ s : Str, splitAllChar sep s ≠ [] := by
  intro s
  induction s with
  | nil => simp [splitAllChar]
  | cons c rest ih =>
    unfold splitAllChar
    by_cases h : c = sep
    · rw [if_pos h]; simp
    · rw [if_neg h]
      cases hs : splitAllChar sep rest with
      | nil => simp
      | cons a t => simp

theorem sa_break (sep : Char) :
    ∀ (a b : Str), sep ∉ a →
      splitAllChar sep (a ++ sep :: b) = a :: splitAllChar sep b := by
  intro a
  induction a with
  | nil =>
    intro b _
    show splitAllChar sep (sep :: b) = [] :: splitAllChar sep b
    simp only [splitAllChar]
    rw [if_pos trivial]
  | cons c a' ih =>
    intro b h
    have hc : c ≠ sep := fun he => h (by simp [he])
    show splitAllChar sep (c :: (a' ++ sep :: b)) = (c :: a') :: splitAllChar sep b
    simp only [splitAllChar]
    rw [if_neg hc, ih b (fun hm => h (by simp [hm]))]

theorem splitAll_intercalate (sep : Char) :
    ∀ (ls : List Str), ls ≠ [] → (∀ l ∈ ls, sep ∉ l) → ∀ b : Str,
      splitAllChar sep (List.intercalate [sep] ls ++ sep :: b)
        = ls ++ splitAllChar sep b := by
  intro ls
  induction ls with
  | nil => intro h; exact absurd rfl h
  | cons l rest ih =>
    intro _ hno b
    cases rest with
    | nil =>
      rw [intercalate_single]
      exact sa_break sep l b (hno l (by simp))
    | cons l2 t =>
      rw [intercalate_cons_of_ne_nil [sep] l (l2 :: t) (by simp)]
      rw [List.append_assoc, List.append_assoc]
      rw [(by simp : ([sep] : Str) ++ (List.intercalate [sep] (l2 :: t) ++ sep :: b)
        = sep :: (List.intercalate [sep] (l2 :: t) ++ sep :: b))]
      rw [sa_break sep l _ (hno l (by simp))]
      rw [ih (by simp) (fun x hx => hno x (by simp [hx])) b]
      rfl

theorem serChildren_eq_map : ∀ cs : List Node, serChildren cs = cs.map serialize_record := by
  intro cs
  induction cs with
  | nil => rfl
  | cons c t ih => rw [List.map_cons, ← ih]; rfl

theorem linesOfList_eq_flatMap : ∀ cs : List Node, linesOfList cs = cs.flatMap linesOf := by
  intro cs
  induction cs with
  | nil => rfl
  | cons c t ih => rw [List.flatMap_cons, ← ih]; rfl

theorem linesOf_ne_nil (r : Node) : linesOf r ≠ [] := by
  obtain ⟨l, t, v, x, ch⟩ := r
  rw [linesOf_eq]
  simp

theorem linesOfList_ne_nil_of_cons (c : Node) (cs : List Node) :
    linesOfList (c :: cs) ≠ [] := by
  rw [linesOfList_cons]
  exact append_ne_nil_left _ (linesOf_ne_nil c)

theorem intercalate_append_ne {α : Type} (sep : α) :
    ∀ (xs ys : List (List α)), xs ≠ [] → ys ≠ [] →
      List.intercalate [sep] (xs ++ ys)
        = List.intercalate [sep] xs ++ sep :: List.intercalate [sep] ys := by
  intro xs
  induction xs with
  | nil => intro ys h; exact absurd rfl h
  | cons x xs' ih =>
    intro ys _ hys
    cases xs' with
    | nil =>
      rw [intercalate_single]
      rw [(by simp : ([x] : List (List α)) ++ ys = x :: ys)]
      rw [intercalate_cons_of_ne_nil [sep] x ys hys]
      simp
    | cons x2 t =>
      rw [(by simp : ((x :: x2 :: t : List (List α)) ++ ys) = x :: ((x2 :: t) ++ ys))]
      rw [intercalate_cons_of_ne_nil [sep] x ((x2 :: t) ++ ys) (by simp)]
      rw [intercalate_cons_of_ne_nil [sep] x (x2 :: t) (by simp)]
      rw [ih ys (by simp) hys]
      simp

theorem ser_lines_aux (cs : List Node)
    (hall : ∀ c ∈ cs, serialize_record c = List.intercalate ['\n'] (linesOf c)) :
    ∀ hd : Str, List.intercalate ['\n'] (hd :: serChildren cs)
      = List.intercalate ['\n'] (hd :: linesOfList cs) := by
  induction cs with
  | nil => intro hd; rfl
  | cons c cs' ih =>
    intro hd
    have hc := hall c (by simp)
    have hih := ih (fun x hx => hall x (by simp [hx]))
    show List.intercalate ['\n'] (hd :: serialize_record c :: serChildren cs')
      = List.intercalate ['\n'] (hd :: (linesOf c ++ linesOfList cs'))
    cases cs' with
    | nil =>
      show List.intercalate ['\n'] (hd :: serialize_record c :: [])
        = List.intercalate ['\n'] (hd :: (linesOf c ++ []))
      rw [List.append_nil]
      rw [intercalate_cons_of_ne_nil ['\n'] hd [serialize_record c] (by simp)]
      rw [intercalate_cons_of_ne_nil ['\n'] hd (linesOf c) (linesOf_ne_nil c)]
      rw [intercalate_single, hc]
    | cons c2 t =>
      rw [intercalate_cons_of_ne_nil ['\n'] hd (serialize_record c :: serChildren (c2 :: t))
        (by simp)]
      rw [hih (serialize_record c)]
      rw [intercalate_cons_of_ne_nil ['\n'] (serialize_record c) (linesOfList (c2 :: t))
        (linesOfList_ne_nil_of_cons c2 t)]
      rw [intercalate_cons_of_ne_nil ['\n'] hd (linesOf c ++ linesOfList (c2 :: t))
        (append_ne_nil_left _ (linesOf_ne_nil c))]
      rw [intercalate_append_ne '\n' (linesOf c) (linesOfList (c2 :: t))
        (linesOf_ne_nil c) (linesOfList_ne_nil_of_cons c2 t)]
      rw [hc]
      simp

theorem ser_lines : ∀ (N : Nat) (r : Node), sizeOf r ≤ N →
    serialize_record r = List.intercalate ['\n'] (linesOf r) := by
  intro N
  induction N with
  | zero =>
    intro r hsz
    exfalso
    obtain ⟨l, t, v, x, ch⟩ := r
    simp only [Node.mk.sizeOf_spec] at hsz
    omega
  | succ N ih =>
    intro r hsz
    obtain ⟨l, t, v, x, ch⟩ := r
    have hall : ∀ c ∈ ch, serialize_record c = List.intercalate ['\n'] (linesOf c) := by
      intro c hc
      apply ih
      have h1 : sizeOf c < sizeOf ch := List.sizeOf_lt_of_mem hc
      simp only [Node.mk.sizeOf_spec] at hsz
      omega
    show List.intercalate ['\n'] (serializeFields l x t v :: serChildren ch)
      = List.intercalate ['\n'] (linesOf ⟨l, t, v, x, ch⟩)
    rw [linesOf_eq]
    exact ser_lines_aux ch hall (serializeFields l x t v)

theorem mem_intercalate_sep {sep c : Char} :
    ∀ (ps : List Str), c ∈ List.intercalate [sep] ps → c = sep ∨ ∃ p ∈ ps, c ∈ p := by
  intro ps
  induction ps with
  | nil => intro h; cases h
  | cons p rest ih =>
    intro h
    cases rest with
    | nil =>
      rw [intercalate_single] at h
      exact Or.inr ⟨p, by simp, h⟩
    | cons p2 t =>
      rw [intercalate_cons_of_ne_nil [sep] p (p2 :: t) (by simp)] at h
      rcases List.mem_append.mp h with h1 | h2
      · rcases List.mem_append.mp h1 with ha | hb
        · exact Or.inr ⟨p, by simp, ha⟩
        · exact Or.inl (by simpa using hb)
      · rcases ih h2 with hs | ⟨q, hq, hcq⟩
        · exact Or.inl hs
        · exact Or.inr ⟨q, by simp [hq], hcq⟩

theorem intToStr_no_nl (i : Int) : '\n' ∉ intToStr i := by
  intro hm
  unfold intToStr at hm
  by_cases h : i < 0
  · rw [if_pos h] at hm
    rcases List.mem_cons.mp hm with h1 | h2
    · exact absurd h1 (by decide)
    · have := natToStr_digits _ _ h2
      rw [(by decide : digitVal '\n' = (none : Option Nat))] at this
      exact absurd this (by simp)
  · rw [if_neg h] at hm
    have := natToStr_digits _ _ hm
    rw [(by decide : digitVal '\n' = (none : Option Nat))] at this
    exact absurd this (by simp)

theorem cleanStr_no_nl {s : Str} (h : cleanStr s = true) : '\n' ∉ s := by
  unfold cleanStr at h
  simp only [Bool.and_eq_true] at h
  have h1 : s.contains '\n' = false := by
    have := h.1
    cases hq : s.contains '\n' with
    | false => rfl
    | true => rw [hq] at this; exact absurd this (by simp)
  exact not_mem_of_contains_false h1

theorem serializeFields_no_nl (t : Tok) (hg : goodTokB t = true) :
    '\n' ∉ serializeFields t.level t.xref t.tag t.value := by
  obtain ⟨_, h2, h3, _, _, h6⟩ := goodTokB_elim t hg
  intro hm
  unfold serializeFields at hm
  rcases mem_intercalate_sep _ hm with hs | ⟨p, hp, hcp⟩
  · exact absurd hs (by decide)
  · rcases List.mem_append.mp hp with hp1 | hp2
    · rcases List.mem_append.mp hp1 with hp3 | hp4
      · rcases List.mem_append.mp hp3 with hp5 | hp6
        · rw [List.mem_singleton.mp hp5] at hcp
          exact intToStr_no_nl t.level hcp
        · cases hx : t.xref with
          | none =>
            rw [hx] at hp6
            simp [optTruthy] at hp6
          | some x =>
            rw [hx] at h6 hp6
            by_cases ht : optTruthy (some x) = true
            · rw [if_pos ht] at hp6
              rw [List.mem_singleton.mp hp6] at hcp
              exact absurd hcp (cleanStr_no_nl h6.2.2.2)
            · rw [if_neg ht] at hp6
              cases hp6
      · rw [List.mem_singleton.mp hp4] at hcp
        exact absurd hcp (cleanStr_no_nl h2)
    · by_cases hv : t.value.isEmpty = true
      · rw [if_pos hv] at hp2
        cases hp2
      · rw [if_neg hv] at hp2
        rw [List.mem_singleton.mp hp2] at hcp
        exact absurd hcp (cleanStr_no_nl h3)

theorem wfLines_no_nl_aux :
    ∀ (N : Nat) (cs : List Node), sizeOf cs ≤ N → ∀ lc, wfChildren lc cs = true →
      ∀ line ∈ linesOfList cs, '\n' ∉ line := by
  intro N
  induction N with
  | zero =>
    intro cs hsz
    exfalso
    cases cs with
    | nil => simp at hsz
    | cons c r => simp only [List.cons.sizeOf_spec] at hsz; omega
  | succ N ih =>
    intro cs hsz lc hwf line hline
    cases cs with
    | nil => cases hline
    | cons c1 rest =>
      obtain ⟨l1, t1, v1, x1, ch1⟩ := c1
      have hwfn1 := wfChildren_head hwf
      rw [wfNode_eq] at hwfn1
      simp only [Bool.and_eq_true, decide_eq_true_eq] at hwfn1
      obtain ⟨⟨hgood1, _⟩, hwfch1⟩ := hwfn1
      have hszch : sizeOf ch1 ≤ N := by
        simp only [List.cons.sizeOf_spec, Node.mk.sizeOf_spec] at hsz
        omega
      have hszrest : sizeOf rest ≤ N := by
        simp only [List.cons.sizeOf_spec, Node.mk.sizeOf_spec] at hsz
        omega
      rw [linesOfList_cons, linesOf_eq] at hline
      rcases List.mem_append.mp hline with h1 | h2
      · rcases List.mem_cons.mp h1 with ha | hb
        · rw [ha]
          exact serializeFields_no_nl ⟨l1, x1, t1, v1⟩ hgood1
        · exact ih ch1 hszch l1 hwfch1 line hb
      · exact ih rest hszrest lc (wfChildren_tail hwf) line h2

theorem wfLines_no_nl {r : Node} (h : wfRoot r = true) :
    ∀ line ∈ linesOf r, '\n' ∉ line := by
  obtain ⟨l0, t0, v0, x0, ch0⟩ := r
  unfold wfRoot at h
  simp only [Bool.and_eq_true] at h
  obtain ⟨⟨⟨hgood0, _⟩, _⟩, hwfch0⟩ := h
  intro line hline
  rw [linesOf_eq] at hline
  rcases List.mem_cons.mp hline with ha | hb
  · rw [ha]
    exact serializeFields_no_nl ⟨l0, x0, t0, v0⟩ hgood0
  · exact wfLines_no_nl_aux (sizeOf ch0) ch0 (le_refl _) 0 hwfch0 line hb

theorem gedOutput_cons (r : Node) (rest : List Node) :
    gedOutput (r :: rest) = (serialize_record r ++ ['\n']) ++ gedOutput rest := by
  unfold gedOutput
  rw [List.map_cons, List.flatten_cons]

theorem gedSplit : ∀ (rs : List Node), (∀ r ∈ rs, wfRoot r = true) →
    splitAllChar '\n' (gedOutput rs) = rs.flatMap linesOf ++ [[]] := by
  intro rs
  induction rs with
  | nil => intro _; rfl
  | cons r rest ih =>
    intro hwf
    rw [gedOutput_cons]
    rw [ser_lines (sizeOf r) r (le_refl _)]
    rw [(by simp : (List.intercalate ['\n'] (linesOf r) ++ ['\n']) ++ gedOutput rest
      = List.intercalate ['\n'] (linesOf r) ++ '\n' :: gedOutput rest)]
    rw [splitAll_intercalate '\n' (linesOf r) (linesOf_ne_nil r)
      (fun l hl => wfLines_no_nl (hwf r (by simp)) l hl) (gedOutput rest)]
    rw [ih (fun x hx => hwf x (by simp [hx]))]
    rw [List.flatMap_cons]
    simp

theorem reparse_ok (rs : List Node) (h : ∀ r ∈ rs, wfRoot r = true) :
    ∃ m', parse_gedcom_lines (splitAllChar '\n' (gedOutput rs)) = .ok (rs, m') := by
  rw [gedSplit rs h]
  obtain ⟨st', hfold, heq⟩ := rootsSim rs [] [] [] h
  refine ⟨st'.idMap, ?_⟩
  unfold parse_gedcom_lines
  rw [List.foldlM_append, hfold]
  have hred : ((Except.ok st' : Except Unit PState) >>= fun st =>
      List.foldlM processLine st [[]]) = List.foldlM processLine st' [[]] := rfl
  rw [hred]
  have hempty : List.foldlM processLine st' [[]] = .ok st' := rfl
  rw [hempty]
  dsimp only
  rw [(by simpa using heq : st'.records ++ collapseStack st'.stack = rs)]

theorem namesPart_tags (ab : List (Str × Str)) (o : Option (List YamlName)) :
    ∀ x : Node, x ∈ (match o with
           | some ns => ns.map (mkNameNode ab)
           | none => ([] : List Node)) → x.tag = "NAME".toList := by
  cases o with
  | none => intro x hx; cases hx
  | some ns => exact nameNodes_tags ab ns

theorem parentsPart_tags (o : Option (List YamlParent)) :
    ∀ x : Node, x ∈ (match o with
           | some ps => ps.filterMap mkParentNode
           | none => ([] : List Node)) → x.tag = "_LOC".toList := by
  cases o with
  | none => intro x hx; cases hx
  | some ps => exact parentNodes_tags ps

theorem claimUidPart_length (u : Str) (rec : Node) :
    (claimUidPart u rec).length = max 1 (countChildTag "_UID".toList rec) := by
  unfold claimUidPart countChildTag
  by_cases h : rec.children.any (fun c => c.tag == "_UID".toList) = true
  · rw [if_pos h]
    have hpos : 0 < (rec.children.filter (fun c => c.tag == "_UID".toList)).length := by
      obtain ⟨x, hx, hpx⟩ := List.any_eq_true.mp h
      exact List.length_pos.mpr (List.ne_nil_of_mem (List.mem_filter.mpr ⟨hx, hpx⟩))
    omega
  · rw [if_neg h]
    have hz : rec.children.filter (fun c => c.tag == "_UID".toList) = [] := by
      rw [List.filter_eq_nil_iff]
      intro x hx
      intro hp
      exact h (List.any_eq_true.mpr ⟨x, hx, hp⟩)
    rw [hz]
    rfl

/-- C1: merging is idempotent — a second `update_record` with the same external
record (even with freshly drawn uid and timestamp inputs) returns the record
unchanged: the children are exactly those the first call produced, the
change-metadata node is carried over rather than regenerated, and the
unique id generated by the first call is preserved. -/
theorem claim_C1 (rec : Node) (item : YamlItem) (u1 d1 t1 u2 d2 t2 : Str) :
    update_record u2 d2 t2 (update_record u1 d1 t1 rec item) item
      = update_record u1 d1 t1 rec item := update_record_idem rec item u1 d1 t1 u2 d2 t2

/-- C3 (corrected): after `update_record` there is always exactly one
change-metadata (`CHAN`) child, but the number of unique-id (`_UID`) children
is `max 1 (previous count)` — pre-existing duplicates are all preserved, so
"at most one unique-id child" fails when the record already had several. -/
theorem claim_C3 (u d t : Str) (rec : Node) (item : YamlItem) :
    countChildTag "CHAN".toList (update_record u d t rec item) = 1
    ∧ countChildTag "_UID".toList (update_record u d t rec item)
        = max 1 (countChildTag "_UID".toList rec) := by
  constructor
  · unfold countChildTag
    rw [update_record_children]
    rw [List.filter_append, List.filter_append, List.filter_append, List.filter_append]
    rw [filter_tag_eq_nil (fun x hx => by
      rw [claimUidPart_tags u rec x hx]; decide)]
    rw [filter_tag_eq_self (fun x hx => by
      rw [List.mem_singleton.mp hx]; exact claimChanPart_tag d t rec)]
    rw [filter_tag_eq_nil (fun x hx => (claimPreservedPart_tags rec x hx).2.2.1)]
    rw [filter_tag_eq_nil (fun x hx => by
      rw [namesPart_tags (abbrsOf rec) item.names x hx]; decide)]
    rw [filter_tag_eq_nil (fun x hx => by
      rw [parentsPart_tags item.parents x hx]; decide)]
    simp
  · unfold countChildTag
    rw [update_record_children]
    rw [List.filter_append, List.filter_append, List.filter_append, List.filter_append]
    rw [filter_tag_eq_self (claimUidPart_tags u rec)]
    rw [filter_tag_eq_nil (fun x hx => by
      rw [List.mem_singleton.mp hx, claimChanPart_tag d t rec]; decide)]
    rw [filter_tag_eq_nil (fun x hx => (claimPreservedPart_tags rec x hx).2.2.2)]
    rw [filter_tag_eq_nil (fun x hx => by
      rw [namesPart_tags (abbrsOf rec) item.names x hx]; decide)]
    rw [filter_tag_eq_nil (fun x hx => by
      rw [parentsPart_tags item.parents x hx]; decide)]
    simp only [List.length_append, List.length_nil]
    rw [claimUidPart_length]
    have hcc : countChildTag "_UID".toList rec
        = (List.filter (fun c => c.tag == "_UID".toList) rec.children).length := rfl
    omega

/-- C3 counterexample: a record that already carries two `_UID` children keeps
both through `update_record`, so its merged children contain more than one
unique-id child, refuting "at most one". -/
theorem claim_C3_refuted :
    1 < countChildTag "_UID".toList
        (update_record [] [] []
          ⟨0, "_LOC".toList, [], some "@L1@".toList,
            [uidNode "A".toList, uidNode "B".toList]⟩
          ⟨none, none⟩) := by decide

/-- C5: after `update_record` the children appear in the fixed order —
unique-id node(s) first (the pre-existing ones in original order, else one
freshly generated node), then one change-metadata node (the captured existing
one if present, else a freshly synthesized one), then all preserved children
(tags outside NAME/_LOC/CHAN/_UID) verbatim in original relative order, then
the new name children in the external record's order, then the new
parent-link children in the external record's order. -/
theorem claim_C5 (uid dateStr timeStr : Str) (rec : Node) (item : YamlItem) :
    (update_record uid dateStr timeStr rec item).children
      = claimUidPart uid rec ++ [claimChanPart dateStr timeStr rec] ++ claimPreservedPart rec
        ++ (match item.names with
            | some ns => ns.map (mkNameNode (abbrsOf rec))
            | none => [])
        ++ (match item.parents with
            | some ps => ps.filterMap mkParentNode
            | none => []) := update_record_children uid dateStr timeStr rec item

/-- C4 (corrected): after a full orchestrator run the last record is always a
trailer, and when the parsed input held at most one trailer record the output
holds exactly one; an input that already held several trailers keeps more
than one (only the first is moved to the end), so "exactly one" needs the
at-most-one hypothesis. -/
theorem claim_C4 (records0 : List Node) (idMap0 : List (Str × Nat))
    (yaml : List (Str × YamlItem)) (fresh : Nat → Str × Str × Str)
    (h : countTag "TRLR".toList records0 ≤ 1) :
    countTag "TRLR".toList (mainRecords records0 idMap0 yaml fresh) = 1
    ∧ ∃ x, (mainRecords records0 idMap0 yaml fresh).getLast? = some x
        ∧ x.tag = "TRLR".toList :=
  ⟨mainRecords_count records0 idMap0 yaml fresh h,
    mainRecords_last records0 idMap0 yaml fresh⟩

/-- C4 witness: the trailer invariant on a concrete empty run. -/
theorem claim_C4_instance :
    countTag "TRLR".toList ([] : List Node) ≤ 1
    ∧ (countTag "TRLR".toList (mainRecords [] [] [] (fun _ => ([], [], []))) = 1
      ∧ ∃ x, (mainRecords [] [] [] (fun _ => ([], [], []))).getLast? = some x
          ∧ x.tag = "TRLR".toList) :=
  ⟨by decide, claim_C4 [] [] [] (fun _ => ([], [], [])) (by decide)⟩

/-- C4 counterexample: a parsed record list with two trailer records still has
two trailer records after the orchestrator's trailer pass, refuting "exactly
one ... for every input". -/
theorem claim_C4_refuted :
    countTag "TRLR".toList
      (mainRecords [⟨0, "TRLR".toList, [], none, []⟩, ⟨0, "TRLR".toList, [], none, []⟩]
        [] [] (fun _ => ([], [], []))) = 2 := by decide

/-- C6: from an empty existing file and the single external record
`{id: "L1", names: [{name: "Springfield"}]}` the orchestrator outputs exactly
two top-level records — first the new `_LOC` record with cross-reference id
`@L1@` whose children are the generated unique-id node, a change-metadata
node, and one `NAME` child valued "Springfield", and last a trailer record. -/
theorem claim_C6 (fresh : Nat → Str × Str × Str) :
    orchestrate [] [("L1".toList, ⟨some [⟨"Springfield".toList, none⟩], none⟩)] fresh
      = .ok [⟨0, "_LOC".toList, [], some "@L1@".toList,
              [uidNode (fresh 0).1,
                create_chan_node (fresh 0).2.1 (fresh 0).2.2,
                ⟨1, "NAME".toList, "Springfield".toList, none, []⟩]⟩,
             ⟨0, "TRLR".toList, [], none, []⟩] := rfl

/-- C7 (corrected): the abbreviation carried into the rebuilt name child is
the last one recorded for that name during the scan of the previous children;
when the only abbreviation sub-child for "Springfield" is "SPR" this is "SPR",
but a later NAME child for the same name overwrites the entry, so the claim
as stated fails for records with several abbreviated NAME children of the
same value. -/
theorem claim_C7 (u d t : Str) (rec : Node) (item : YamlItem)
    (ns : List YamlName) (nm ab : Str)
    (hn : item.names = some ns) (hmem : (⟨nm, none⟩ : YamlName) ∈ ns)
    (hab : (abbrCands nm rec.children).getLast? = some ab) :
    nameCarries (update_record u d t rec item) nm ab = true := by
  unfold nameCarries
  rw [update_record_children, hn]
  apply List.any_eq_true.mpr
  refine ⟨mkNameNode (abbrsOf rec) ⟨nm, none⟩, ?_, ?_⟩
  · simp only [List.mem_append]
    exact Or.inl (Or.inr (List.mem_map.mpr ⟨⟨nm, none⟩, hmem, rfl⟩))
  · have hlook : abbrLookup nm (abbrsOf rec) = some ab := by
      rw [abbrsOf_lookup, hab]
    unfold mkNameNode
    rw [hlook]
    simp

/-- C7 witness: a record whose single "Springfield" name child carries the
abbreviation "SPR" hands it to the rebuilt name child. -/
theorem claim_C7_instance :
    ((⟨some [⟨"Springfield".toList, none⟩], none⟩ : YamlItem).names
        = some [⟨"Springfield".toList, none⟩])
    ∧ (⟨"Springfield".toList, none⟩ : YamlName) ∈ [(⟨"Springfield".toList, none⟩ : YamlName)]
    ∧ (abbrCands "Springfield".toList
        [⟨1, "NAME".toList, "Springfield".toList, none,
          [⟨2, "ABBR".toList, "SPR".toList, none, []⟩]⟩]).getLast? = some "SPR".toList
    ∧ nameCarries
        (update_record [] [] []
          ⟨0, "_LOC".toList, [], some "@L1@".toList,
            [⟨1, "NAME".toList, "Springfield".toList, none,
              [⟨2, "ABBR".toList, "SPR".toList, none, []⟩]⟩]⟩
          ⟨some [⟨"Springfield".toList, none⟩], none⟩)
        "Springfield".toList "SPR".toList = true :=
  ⟨rfl, by decide, by decide,
    claim_C7 [] [] []
      ⟨0, "_LOC".toList, [], some "@L1@".toList,
        [⟨1, "NAME".toList, "Springfield".toList, none,
          [⟨2, "ABBR".toList, "SPR".toList, none, []⟩]⟩]⟩
      ⟨some [⟨"Springfield".toList, none⟩], none⟩
      [⟨"Springfield".toList, none⟩] "Springfield".toList "SPR".toList
      rfl (by decide) (by decide)⟩

/-- C7 counterexample: with a later NAME "Springfield" child abbreviated
"XYZ", the record still has a NAME "Springfield" child carrying "SPR" before
the merge, but the rebuilt name child no longer carries "SPR" — the later
entry overwrote it. -/
theorem claim_C7_refuted :
    nameCarries
      (update_record [] [] []
        ⟨0, "_LOC".toList, [], some "@L1@".toList,
          [⟨1, "NAME".toList, "Springfield".toList, none,
            [⟨2, "ABBR".toList, "SPR".toList, none, []⟩]⟩,
           ⟨1, "NAME".toList, "Springfield".toList, none,
            [⟨2, "ABBR".toList, "XYZ".toList, none, []⟩]⟩]⟩
        ⟨some [⟨"Springfield".toList, none⟩], none⟩)
      "Springfield".toList "SPR".toList = false := by decide

/-- C8: a line that tokenizes to level 0, tag `_LOC`, no cross-reference id,
and a value that starts and ends with `@` is discarded by the parser without
error — the whole parse behaves exactly as if the line were absent, so no
node, record or identifier-index entry comes from it. -/
theorem claim_C8 (pre post : List Str) (line : Str) (t : Tok)
    (ht : tokenizeLine line = .ok (some t))
    (hlev : t.level = 0) (htag : t.tag = "_LOC".toList) (hx : t.xref = none)
    (hstart : pyStarts t.value ['@'] = true) (hend : pyEnds t.value ['@'] = true) :
    parse_gedcom_lines (pre ++ line :: post) = parse_gedcom_lines (pre ++ post) := by
  have hg : isGarbage t = true := by
    unfold isGarbage
    rw [hlev, htag, hx, hstart, hend]
    rfl
  exact parse_skip_line pre post line (fun st => processLine_of_garbage st line t ht hg)

/-- C8 witness: the concrete garbage line `0 _LOC @L1@` is dropped. -/
theorem claim_C8_instance :
    tokenizeLine "0 _LOC @L1@".toList
        = .ok (some ⟨0, none, "_LOC".toList, "@L1@".toList⟩)
    ∧ parse_gedcom_lines ([] ++ "0 _LOC @L1@".toList :: ["0 TRLR".toList])
        = parse_gedcom_lines ([] ++ ["0 TRLR".toList]) :=
  ⟨rfl,
    claim_C8 [] ["0 TRLR".toList] "0 _LOC @L1@".toList
      ⟨0, none, "_LOC".toList, "@L1@".toList⟩
      rfl rfl rfl rfl (by decide) (by decide)⟩

/-- C9: a tokenized line with level above 0 for which every stacked ancestor
has level at least the line's level (in particular an empty stack) is dropped
silently — the step succeeds, the stack is flushed into the finished records,
and the new node is attached nowhere (it reaches neither the record list nor
the stack). -/
theorem claim_C9 (st : PState) (line : Str) (t : Tok)
    (ht : tokenizeLine line = .ok (some t)) (hpos : 0 < t.level)
    (hstk : ∀ e ∈ st.stack, t.level ≤ e.1) :
    processLine st line = .ok ⟨st.records ++ collapseStack st.stack, st.idMap, []⟩ :=
  processLine_orphan st line t ht hpos hstk

/-- C9 witness: the line `1 NAME X` on an empty stack is dropped silently. -/
theorem claim_C9_instance :
    tokenizeLine "1 NAME X".toList = .ok (some ⟨1, none, "NAME".toList, "X".toList⟩)
    ∧ (0 : Int) < 1
    ∧ processLine (⟨[], [], []⟩ : PState) "1 NAME X".toList
        = .ok ⟨[] ++ collapseStack [], [], []⟩ :=
  ⟨rfl, by decide,
    claim_C9 ⟨[], [], []⟩ "1 NAME X".toList ⟨1, none, "NAME".toList, "X".toList⟩
      rfl (by decide) (by decide)⟩

/-- C10 (corrected): parsing is total only for inputs without a line whose
stripped text has an integer first space-segment and nothing after it; on
such a line (for example the line `0`) the parser raises `IndexError`, so
the unconditional totality claim fails. -/
theorem claim_C10 (lines : List Str) (h : ∀ l ∈ lines, lineRaises l = false) :
    ∃ out, parse_gedcom_lines lines = .ok out :=
  parse_total_of_no_raise lines h

/-- C10 witness: a benign input parses to a result. -/
theorem claim_C10_instance :
    (∀ l ∈ [("0 TRLR".toList : Str)], lineRaises l = false)
    ∧ ∃ out, parse_gedcom_lines ["0 TRLR".toList] = .ok out :=
  ⟨by decide, claim_C10 ["0 TRLR".toList] (by decide)⟩

/-- C10 counterexample: the single line `0` makes `parse_gedcom_lines`
raise (the embedded `IndexError`), refuting totality. -/
theorem claim_C10_refuted :
    parse_gedcom_lines [['0']] = .error () := rfl

/-- C2: for records parsed from clean input lines (no line-terminator
characters inside a line), serializing the parsed records, splitting the
text back into lines, and parsing again reproduces the records exactly, so
a second serialization is byte-identical to the first. -/
theorem claim_C2 (lines : List Str) (rs : List Node) (m : List (Str × Nat))
    (hclean : ∀ l ∈ lines, '\n' ∉ l ∧ '\x0d' ∉ l)
    (hp : parse_gedcom_lines lines = .ok (rs, m)) :
    ∃ rs' m', parse_gedcom_lines (splitAllChar '\n' (gedOutput rs)) = .ok (rs', m')
      ∧ gedOutput rs' = gedOutput rs :=
  match reparse_ok rs (parse_wf hclean hp) with
  | ⟨m', hm'⟩ => ⟨rs, m', hm', rfl⟩

/-- C2 witness: the round trip on a concrete one-record file. -/
theorem claim_C2_instance :
    (∀ l ∈ [("0 TRLR".toList : Str)], '\n' ∉ l ∧ '\x0d' ∉ l)
    ∧ ∃ rs' m', parse_gedcom_lines (splitAllChar '\n'
          (gedOutput [⟨0, "TRLR".toList, [], none, []⟩]))
        = .ok (rs', m')
      ∧ gedOutput rs' = gedOutput [⟨0, "TRLR".toList, [], none, []⟩] :=
  ⟨by decide,
    claim_C2 ["0 TRLR".toList] [⟨0, "TRLR".toList, [], none, []⟩] []
      (by decide) rfl⟩
